import Mathlib

/-!
Verification development for `trim_includes.py`, a tool that minimizes the
leading `#include` block of C source files by recompiling candidates with
individual includes removed.

The embedding models:
* a source file as a `List String` of lines (as produced by
  `splitlines(keepends=True)`),
* the include-directive regular expression as an executable matcher,
* the compilation oracle (`subprocess.run`) as a function
  `List String → Except PyExn Int` giving either a raised exception
  (e.g. `FileNotFoundError` for a missing compiler) or an exit status,
* the temporary-file namespace as an explicit state (`TmpState`) recording
  which temporary files currently exist.

All functions are direct translations of the Python source; pure "shadow"
versions (suffix `P`) are proved equivalent to the effectful ones under a
never-raising oracle and used to state the functional claims.
-/

namespace TrimIncludes

/-- Python `\s` whitespace class (`str.strip` uses the same set). -/
def isPySpace (c : Char) : Bool :=
  c = ' ' ∨ c = '\t' ∨ c = '\n' ∨ c = '\r' ∨ c = '\x0b' ∨ c = '\x0c'

/-- Characters of a string with leading and trailing whitespace removed,
Python `str.strip()`. -/
def stripChars (cs : List Char) : List Char :=
  ((cs.dropWhile isPySpace).reverse.dropWhile isPySpace).reverse

/-- Python `s.strip()`. -/
def pyStrip (s : String) : String := ⟨stripChars s.data⟩

/-- `not line.strip()`: the line is blank (whitespace only). -/
def isBlank (s : String) : Bool := (stripChars s.data).isEmpty

/-- One line of a source file (with its terminator, when present). -/
abbrev Line := String

/-- Matcher for `INCLUDE_RE = ^\s*#\s*include\s*([<"])([^>"]+)[>"]`
(a prefix match, as `re.match`); returns group 2 (the header name). -/
def matchIncludeChars (cs : List Char) : Option String :=
  match (cs.dropWhile isPySpace) with
  | '#' :: rest =>
    let rest := rest.dropWhile isPySpace
    if ("include".data).isPrefixOf rest then
      match (rest.drop 7).dropWhile isPySpace with
      | d :: rest2 =>
        if d = '<' ∨ d = '"' then
          let hdr := rest2.takeWhile (fun c => ¬ (c = '>' ∨ c = '"'))
          match rest2.dropWhile (fun c => ¬ (c = '>' ∨ c = '"')) with
          | _ :: _ => if hdr.isEmpty then none else some ⟨hdr⟩
          | [] => none
        else none
      | [] => none
    else none
  | _ => none

/-- `INCLUDE_RE.match(line)`, returning the captured header name. -/
def matchInclude (l : Line) : Option String := matchIncludeChars l.data

/-- `IncludeLine` dataclass: position, raw line text, extracted header. -/
structure IncludeLine where
  idx : Nat
  text : Line
  target : String
deriving Repr, DecidableEq

/-- First index whose line matches the include pattern (`for i, line in
enumerate(lines): if INCLUDE_RE.match(line): start = i; break`). -/
def findStart : Nat → List Line → Option Nat
  | _, [] => none
  | i, l :: ls => if (matchInclude l).isSome then some i else findStart (i + 1) ls

/-- The `while` loop of `find_include_block`: starting at absolute index `e`
on the corresponding suffix of the file, extend through include or blank
lines, collecting `IncludeLine` records; returns the final `end` index and
the collected records. -/
def blockLoop : Nat → List Line → Nat × List IncludeLine
  | e, [] => (e, [])
  | e, l :: ls =>
    match matchInclude l with
    | some t =>
      let r := blockLoop (e + 1) ls
      (r.1, ⟨e, l, t⟩ :: r.2)
    | none =>
      if isBlank l then blockLoop (e + 1) ls
      else (e, [])

/-- `find_include_block(lines)`: boundaries of the first contiguous run of
include/blank lines plus the structured include records, or `none` when no
line matches the include pattern. -/
def find_include_block (lines : List Line) : Option (Nat × Nat × List IncludeLine) :=
  match findStart 0 lines with
  | none => none
  | some s =>
    let r := blockLoop s (lines.drop s)
    some (s, r.1, r.2)

/-- `[ln for i, ln in enumerate(lines) if i != k]`, scanning with the
enumeration counter starting at `i`. -/
def removeIdxAux (k : Nat) : Nat → List Line → List Line
  | _, [] => []
  | i, l :: ls =>
    if i = k then removeIdxAux k (i + 1) ls else l :: removeIdxAux k (i + 1) ls

/-- The candidate line sequence used by `determine_needed`: the file with
exactly the line at index `k` deleted. -/
def removeIdx (lines : List Line) (k : Nat) : List Line := removeIdxAux k 0 lines

/-- Python `set.add`: lists used as finite sets of strings (membership is
what the program observes). -/
def setInsert (t : String) (s : List String) : List String :=
  if t ∈ s then s else t :: s

/-- `set(xs)` built by iterated insertion. -/
def listToSet (ts : List String) : List String :=
  ts.foldl (fun s t => setInsert t s) []

/-- `inc.text if inc.text.endswith("\n") else inc.text + "\n"`. -/
def endsNL (t : Line) : Bool := t.data.getLast? = some '\n'

/-- Terminate an include line with a line break when it lacks one. -/
def terminateLine (t : Line) : Line := if endsNL t then t else t ++ "\n"

/-- The `new_block`/`seen` loop of `rebuild_file`: keep, in original order,
the first occurrence of each include whose text is in `keep`. -/
def buildNewBlockAux (keep : List String) : List String → List IncludeLine → List Line
  | _, [] => []
  | seen, inc :: rest =>
    if inc.text ∈ keep ∧ inc.text ∉ seen then
      terminateLine inc.text :: buildNewBlockAux keep (inc.text :: seen) rest
    else buildNewBlockAux keep seen rest

/-- The deduplicated kept block of `rebuild_file` (before the separator). -/
def buildNewBlock (blk : List IncludeLine) (keep : List String) : List Line :=
  buildNewBlockAux keep [] blk

/-- `end >= len(lines) or lines[end].strip()` (short-circuit: the index is
only read when in range). -/
def sepNeeded (lines : List Line) (e : Nat) : Bool :=
  decide (e ≥ lines.length) || !(isBlank (lines.getD e ""))

/-- `rebuild_file(lines, start, end, include_block, keep_texts)`. -/
def rebuild_file (lines : List Line) (s e : Nat) (blk : List IncludeLine)
    (keep : List String) : List Line :=
  let nb := buildNewBlock blk keep
  let nb := if !nb.isEmpty && sepNeeded lines e then nb ++ ["\n"] else nb
  lines.take s ++ nb ++ lines.drop e

/-! ## The compilation oracle and the temporary-file namespace -/

/-- An exception raised by `subprocess.run` (e.g. `FileNotFoundError` when
the compiler executable is missing).  The script installs no handler for
it. -/
inductive PyExn where
  | fileNotFound
deriving Repr, DecidableEq

/-- The system temporary-file namespace: `live` is the list of temporary
files currently existing on disk (as the ids handed out by
`tempfile.NamedTemporaryFile(delete=False)`), `next` the next fresh id. -/
structure TmpState where
  live : List Nat
  next : Nat
deriving Repr, DecidableEq

/-- `tempfile.NamedTemporaryFile(delete=False)` followed by `close()`:
creates a fresh file on disk and returns its name. -/
def mkTemp (s : TmpState) : Nat × TmpState :=
  (s.next, ⟨s.next :: s.live, s.next + 1⟩)

/-- `os.unlink(name)`. -/
def unlink (fid : Nat) (s : TmpState) : TmpState :=
  ⟨s.live.erase fid, s.next⟩

/-- Behaviour of one `subprocess.run([compiler, "-c", src, "-o", obj, ...])`
invocation, keyed by the content of the temporary source file it is given:
either an exception or the process exit status.  A fixed function models a
deterministic compiler. -/
abbrev RunBehavior := List Line → Except PyExn Int

/-- `compile_check(source, compiler, includes, cflags, verbose)`.  `content`
is the text of the file at `source`.  The temporary object file is created
before the compiler runs and unlinked after it returns; if `subprocess.run`
raises, the `os.unlink` line is never reached and the exception
propagates. -/
def compile_check (run : RunBehavior) (content : List Line) (s : TmpState) :
    Except PyExn Bool × TmpState :=
  let (obj, s1) := mkTemp s
  match run content with
  | .error ex => (.error ex, s1)
  | .ok rc => (.ok (rc == 0), unlink obj s1)

/-- `compile_lines(lines, ...)`: `write_temp` the candidate, `compile_check`
it, `os.unlink` the temporary source.  Again the unlink is skipped when the
compiler invocation raises. -/
def compile_lines (run : RunBehavior) (ls : List Line) (s : TmpState) :
    Except PyExn Bool × TmpState :=
  let (src, s1) := mkTemp s
  match compile_check run ls s1 with
  | (.error ex, s2) => (.error ex, s2)
  | (.ok ok, s2) => (.ok ok, unlink src s2)

/-! ## Necessity classification -/

/-- The per-include loop of `determine_needed`: for each `IncludeLine`,
write a temporary copy of the file minus that one line, compile it, unlink
the copy, and add the include's text to `needed` when compilation failed. -/
def detLoop (run : RunBehavior) (lines : List Line) :
    List IncludeLine → List String → TmpState →
      Except PyExn (List String) × TmpState
  | [], needed, s => (.ok needed, s)
  | inc :: rest, needed, s =>
    let trimmed := removeIdx lines inc.idx
    let (tsrc, s1) := mkTemp s
    match compile_check run trimmed s1 with
    | (.error ex, s2) => (.error ex, s2)
    | (.ok ok, s2) =>
      detLoop run lines rest (if ok then needed else setInsert inc.text needed)
        (unlink tsrc s2)

/-- `determine_needed(file_path, include_block, lines, ...)`: baseline
compile of the unmodified file, then the one-at-a-time loop.  Returns
`(needed_include_texts, baseline_ok)`. -/
def determine_needed (run : RunBehavior) (blk : List IncludeLine)
    (lines : List Line) (s : TmpState) :
    Except PyExn (List String × Bool) × TmpState :=
  let (bsrc, s1) := mkTemp s
  match compile_check run lines s1 with
  | (.error ex, s2) => (.error ex, s2)
  | (.ok bok, s2) =>
    let s3 := unlink bsrc s2
    if bok then
      match detLoop run lines blk [] s3 with
      | (.error ex, s4) => (.error ex, s4)
      | (.ok needed, s4) => (.ok (needed, true), s4)
    else (.ok ([], false), s3)

/-! ## Rewriter, repair loop, driver -/

/-- The repair loop of `process_file`: re-add removed includes one at a
time in their original order, recompiling after each addition, until a
candidate compiles (`break`) or the list is exhausted (`for ... else`).
Returns whether a candidate compiled, and the final `keep_set`. -/
def repairLoop (run : RunBehavior) (lines : List Line) (st en : Nat)
    (blk : List IncludeLine) :
    List IncludeLine → List String → TmpState →
      Except PyExn (Bool × List String) × TmpState
  | [], keep, s => (.ok (false, keep), s)
  | inc :: rest, keep, s =>
    let keep1 := setInsert inc.text keep
    let cand := rebuild_file lines st en blk keep1
    match compile_lines run cand s with
    | (.error ex, s1) => (.error ex, s1)
    | (.ok true, s1) => (.ok (true, keep1), s1)
    | (.ok false, s1) => repairLoop run lines st en blk rest keep1 s1

/-- How `process_file` ended, mirroring its printed report lines. -/
inductive Outcome where
  | skip        -- no include block found
  | errBaseline -- failed to compile baseline; skipping
  | errRepair   -- trimmed includes fail to compile; keeping original block
  | fixed       -- rewrote the file
  | noop        -- no changes needed
  | checked     -- report-only mode
deriving Repr, DecidableEq

/-- Result of `process_file`: its boolean return value, the on-disk content
of the file afterwards (the input lines unless a rewrite was committed),
and which report was printed. -/
structure FileResult where
  ok : Bool
  out : List Line
  outcome : Outcome
deriving Repr, DecidableEq

/-- `process_file(path, args, includes, cflags)` with `args.fix = fix`;
`lines` is the file's content.  In fix mode the reduced block is recompiled
and, when it fails, repaired; the file is written only when the final
content differs from the input. -/
def process_file (run : RunBehavior) (fix : Bool) (lines : List Line)
    (s : TmpState) : Except PyExn FileResult × TmpState :=
  match find_include_block lines with
  | none => (.ok ⟨true, lines, .skip⟩, s)
  | some (st, en, blk) =>
    match determine_needed run blk lines s with
    | (.error ex, s1) => (.error ex, s1)
    | (.ok nb, s1) =>
      let needed := nb.1
      if nb.2 then
        let kept := blk.filter (fun inc => inc.text ∈ needed)
        let removed := blk.filter (fun inc => inc.text ∉ needed)
        let keep0 := listToSet (kept.map (fun inc => inc.text))
        if fix then
          let finish := fun (keepF : List String) (sF : TmpState) =>
            let new_lines := rebuild_file lines st en blk keepF
            if new_lines = lines then
              ((.ok ⟨true, lines, .noop⟩ : Except PyExn FileResult), sF)
            else (.ok ⟨true, new_lines, .fixed⟩, sF)
          match compile_lines run (rebuild_file lines st en blk keep0) s1 with
          | (.error ex, s2) => (.error ex, s2)
          | (.ok cok, s2) =>
            if cok then finish keep0 s2
            else
              match repairLoop run lines st en blk removed keep0 s2 with
              | (.error ex, s3) => (.error ex, s3)
              | (.ok found, s3) =>
                if found.1 then finish found.2 s3
                else (.ok ⟨false, lines, .errRepair⟩, s3)
        else (.ok ⟨true, lines, .checked⟩, s1)
      else (.ok ⟨false, lines, .errBaseline⟩, s1)

/-- The per-file loop of `main`: `ok = process_file(...) and ok` — the call
is made before the conjunction, so a failing file never short-circuits the
ones after it. -/
def mainLoop (run : RunBehavior) (fix : Bool) :
    List (List Line) → Bool → TmpState → Except PyExn Bool × TmpState
  | [], ok, s => (.ok ok, s)
  | f :: fs, ok, s =>
    match process_file run fix f s with
    | (.error ex, s1) => (.error ex, s1)
    | (.ok r, s1) => mainLoop run fix fs (r.ok && ok) s1

/-- The tail of `main`: iterate the collected files and map the aggregate
boolean to the process exit status (`0 if ok else 1`). -/
def mainRun (run : RunBehavior) (fix : Bool) (files : List (List Line))
    (s : TmpState) : Except PyExn Int × TmpState :=
  match mainLoop run fix files true s with
  | (.error ex, s1) => (.error ex, s1)
  | (.ok allOk, s1) => (.ok (if allOk then 0 else 1), s1)

/-! ## Pure shadows

A deterministic compilation oracle that never raises is a function
`f : List Line → Bool`; `pureRun f` is the corresponding `subprocess.run`
behaviour (exit status `0` on acceptance, `1` on rejection).  The `…P`
functions below shadow the effectful pipeline for such an oracle and are
proved equivalent to it. -/

/-- A compiler invocation that always returns an exit status, accepting
exactly the line sequences `f` accepts. -/
def pureRun (f : List Line → Bool) : RunBehavior :=
  fun ls => .ok (if f ls then 0 else 1)

/-- Pure shadow of `detLoop`. -/
def detLoopP (f : List Line → Bool) (lines : List Line) :
    List IncludeLine → List String → List String
  | [], needed => needed
  | inc :: rest, needed =>
    detLoopP f lines rest
      (if f (removeIdx lines inc.idx) then needed else setInsert inc.text needed)

/-- Pure shadow of `determine_needed`. -/
def determine_neededP (f : List Line → Bool) (blk : List IncludeLine)
    (lines : List Line) : List String × Bool :=
  if f lines then (detLoopP f lines blk [], true) else ([], false)

/-- Pure shadow of `repairLoop`. -/
def repairLoopP (f : List Line → Bool) (lines : List Line) (st en : Nat)
    (blk : List IncludeLine) :
    List IncludeLine → List String → Bool × List String
  | [], keep => (false, keep)
  | inc :: rest, keep =>
    let keep1 := setInsert inc.text keep
    if f (rebuild_file lines st en blk keep1) then (true, keep1)
    else repairLoopP f lines st en blk rest keep1

/-- Pure shadow of `process_file`. -/
def process_fileP (f : List Line → Bool) (fix : Bool) (lines : List Line) :
    FileResult :=
  match find_include_block lines with
  | none => ⟨true, lines, .skip⟩
  | some (st, en, blk) =>
    let needed := (determine_neededP f blk lines).1
    if (determine_neededP f blk lines).2 then
      let kept := blk.filter (fun inc => inc.text ∈ needed)
      let removed := blk.filter (fun inc => inc.text ∉ needed)
      let keep0 := listToSet (kept.map (fun inc => inc.text))
      if fix then
        let finish := fun (keepF : List String) =>
          let new_lines := rebuild_file lines st en blk keepF
          if new_lines = lines then (⟨true, lines, .noop⟩ : FileResult)
          else ⟨true, new_lines, .fixed⟩
        if f (rebuild_file lines st en blk keep0) then finish keep0
        else
          let found := repairLoopP f lines st en blk removed keep0
          if found.1 then finish found.2
          else ⟨false, lines, .errRepair⟩
      else ⟨true, lines, .checked⟩
    else ⟨false, lines, .errBaseline⟩

/-! ## Makefile flag extraction (`parse_make_vars`, `_normalize_includes`,
`makefile_flags`) -/

/-- `line.split(sep, 1)`: split at the first occurrence of `sep`, if any. -/
def splitFirst (sep : Char) : List Char → Option (List Char × List Char)
  | [] => none
  | c :: cs =>
    if c = sep then some ([], cs)
    else match splitFirst sep cs with
      | none => none
      | some (l, r) => some (c :: l, r)

/-- Python dict assignment `d[k] = v` on an insertion-ordered map. -/
def dictSet (k v : String) : List (String × String) → List (String × String)
  | [] => [(k, v)]
  | (k0, v0) :: rest =>
    if k0 = k then (k, v) :: rest else (k0, v0) :: dictSet k v rest

/-- Python `d.get(k, default)`. -/
def dictGet (d : List (String × String)) (k dflt : String) : String :=
  match d with
  | [] => dflt
  | (k0, v0) :: rest => if k0 = k then v0 else dictGet rest k dflt

/-- `re.findall(r"\$\(([^)]+)\)", value)`: the `$(NAME)` references of a
value, left to right, non-overlapping (fuel-indexed scan). -/
def findVarRefsAux : Nat → List Char → List String
  | 0, _ => []
  | _ + 1, [] => []
  | fuel + 1, c :: cs =>
    if c = '$' then
      match cs with
      | '(' :: rest =>
        let inner := rest.takeWhile (fun d => ¬ d = ')')
        match rest.dropWhile (fun d => ¬ d = ')') with
        | ')' :: after =>
          if inner.isEmpty then findVarRefsAux fuel cs
          else (⟨inner⟩ : String) :: findVarRefsAux fuel after
        | _ => findVarRefsAux fuel cs
      | _ => findVarRefsAux fuel cs
    else findVarRefsAux fuel cs

def findVarRefs (value : String) : List String :=
  findVarRefsAux (value.data.length + 1) value.data

/-- Python `str.replace(pat, rep)`: replace every (left-to-right,
non-overlapping) occurrence of `pat`. -/
def replaceAllAux (pat rep : List Char) : Nat → List Char → List Char
  | 0, cs => cs
  | _ + 1, [] => []
  | fuel + 1, c :: cs =>
    if pat.isPrefixOf (c :: cs) ∧ ¬ pat.isEmpty then
      rep ++ replaceAllAux pat rep fuel ((c :: cs).drop pat.length)
    else c :: replaceAllAux pat rep fuel cs

def replaceAll (pat rep s : String) : String :=
  ⟨replaceAllAux pat.data rep.data (s.data.length + 1) s.data⟩

/-- The `expand` closure of `parse_make_vars`: for each `$(NAME)` reference
found in the original value, replace it with the variable's value (empty if
undefined). -/
def expandValue (vars : List (String × String)) (value : String) : String :=
  (findVarRefs value).foldl
    (fun v var => replaceAll ("$(" ++ var ++ ")") (dictGet vars var "") v) value

/-- `"#" not starting, "=" present`: one pass of the assignment scan of
`parse_make_vars` over the raw Makefile lines. -/
def parseLines : List String → List (String × String) → List (String × String)
  | [], vars => vars
  | raw :: rest, vars =>
    let line := pyStrip raw
    if line.data.isEmpty ∨ line.data.head? = some '#' ∨ ¬ '=' ∈ line.data then
      parseLines rest vars
    else
      match splitFirst '=' line.data with
      | none => parseLines rest vars
      | some (nm, vl) =>
        let name := pyStrip ⟨nm⟩
        let val := pyStrip ⟨vl.takeWhile (fun c => ¬ c = '#')⟩
        parseLines rest (dictSet name val vars)

/-- `parse_make_vars(makefile)` on the Makefile's lines (`splitlines()`):
naive single-line assignments, then one round of `$(VAR)` expansion against
the completed map. -/
def parse_make_vars (content : List String) : List (String × String) :=
  let vars := parseLines content []
  vars.map (fun kv => (kv.1, expandValue vars kv.2))

/-- `shlex.split` restricted to its behaviour on quote- and escape-free
text (all values exercised here): split on whitespace runs. -/
def shlexSplitAux : List Char → List Char → List String
  | [], acc => if acc.isEmpty then [] else [⟨acc.reverse⟩]
  | c :: cs, acc =>
    if isPySpace c then
      if acc.isEmpty then shlexSplitAux cs []
      else (⟨acc.reverse⟩ : String) :: shlexSplitAux cs []
    else shlexSplitAux cs (c :: acc)

def shlexSplit (s : String) : List String := shlexSplitAux s.data []

/-- `PurePath.is_absolute()` for POSIX paths. -/
def isAbsolutePath (p : String) : Bool := p.data.head? = some '/'

/-- `(base_dir / path_part).resolve()`, modelled for an absolute, already
resolved `base_dir` and a `.`/`..`-free relative `path_part`, where it is
plain concatenation. -/
def resolveJoin (base p : String) : String := base ++ "/" ++ p

/-- `_normalize_includes(include_tokens, base_dir)`. -/
def _normalize_includes (toks : List String) (base_dir : String) : List String :=
  match toks with
  | [] => []
  | tok :: rest =>
    if tok.data.isEmpty then _normalize_includes rest base_dir
    else
      let path_part := if ("-I".data).isPrefixOf tok.data then (⟨tok.data.drop 2⟩ : String) else tok
      let path := if isAbsolutePath path_part then path_part
        else resolveJoin base_dir path_part
      ("-I" ++ path) :: _normalize_includes rest base_dir

/-- `makefile_flags(makefile)`; `content` is the Makefile's text lines and
`base_dir` is `makefile.parent.resolve()`. -/
def makefile_flags (content : List String) (base_dir : String) :
    List String × List String :=
  let vars := parse_make_vars content
  let include_tokens := shlexSplit (dictGet vars "INCLUDES" "")
  let includes := _normalize_includes include_tokens base_dir
  let cflags := shlexSplit (dictGet vars "CFLAGS" "")
  (includes, cflags)


/-- Specification-side "one copy of each text, at the position of its
first appearance", with an explicit already-seen accumulator. -/
def dedupFirstAux : List String → List String → List String
  | [], _ => []
  | x :: xs, seen =>
    if x ∈ seen then dedupFirstAux xs seen
    else x :: dedupFirstAux xs (x :: seen)

/-- Keep the first occurrence of each text, in order. -/
def dedupFirst (l : List String) : List String := dedupFirstAux l []


/-- The keep set after re-adding the texts of the given removed includes,
in order (Python `keep_set.add(inc.text)` iterated). -/
def addTexts (keep : List String) (l : List IncludeLine) : List String :=
  l.foldl (fun k inc => setInsert inc.text k) keep

/-- The repair-loop clause of claim C1: when the reduced block fails to
compile, the loop re-adds the removed includes one at a time in their
original order, recompiling after each addition; the final content is the
rebuild at the FIRST compiling prefix, or the file is reported failed and
left unchanged after all prefixes failed. -/
def c1RepairClause (f : List Line → Bool) (lines : List Line) : Prop :=
  ∀ st en blk, find_include_block lines = some (st, en, blk) →
    f (rebuild_file lines st en blk (listToSet ((blk.filter (fun inc =>
        inc.text ∈ (determine_neededP f blk lines).1)).map
        (fun inc => inc.text)))) = false →
    ((∃ m, m < (blk.filter (fun inc =>
          inc.text ∉ (determine_neededP f blk lines).1)).length ∧
        f (rebuild_file lines st en blk
          (addTexts (listToSet ((blk.filter (fun inc =>
              inc.text ∈ (determine_neededP f blk lines).1)).map
              (fun inc => inc.text)))
            ((blk.filter (fun inc =>
              inc.text ∉ (determine_neededP f blk lines).1)).take (m + 1)))) =
          true ∧
        (∀ j, j < m → f (rebuild_file lines st en blk
          (addTexts (listToSet ((blk.filter (fun inc =>
              inc.text ∈ (determine_neededP f blk lines).1)).map
              (fun inc => inc.text)))
            ((blk.filter (fun inc =>
              inc.text ∉ (determine_neededP f blk lines).1)).take (j + 1)))) =
          false) ∧
        (process_fileP f true lines).ok = true ∧
        (process_fileP f true lines).out =
          rebuild_file lines st en blk
            (addTexts (listToSet ((blk.filter (fun inc =>
                inc.text ∈ (determine_neededP f blk lines).1)).map
                (fun inc => inc.text)))
              ((blk.filter (fun inc =>
                inc.text ∉ (determine_neededP f blk lines).1)).take (m + 1)))) ∨
      ((∀ j, j < (blk.filter (fun inc =>
            inc.text ∉ (determine_neededP f blk lines).1)).length →
          f (rebuild_file lines st en blk
            (addTexts (listToSet ((blk.filter (fun inc =>
                inc.text ∈ (determine_neededP f blk lines).1)).map
                (fun inc => inc.text)))
              ((blk.filter (fun inc =>
                inc.text ∉ (determine_neededP f blk lines).1)).take (j + 1)))) =
            false) ∧
        process_fileP f true lines = ⟨false, lines, .errRepair⟩))


/-- `IncludeLine` records for a run of consecutive include lines starting
at absolute index `e`. -/
def mkRecords (e : Nat) : List Line → List IncludeLine
  | [] => []
  | k :: ks => ⟨e, k, (matchInclude k).getD ""⟩ :: mkRecords (e + 1) ks


/-! ## Bridge lemmas: the effectful pipeline under a never-raising oracle -/

theorem erase_cons_self (a : Nat) (l : List Nat) : (a :: l).erase a = l := by
  simp [List.erase_cons]

theorem compile_check_pure (f : List Line → Bool) (content : List Line)
    (s : TmpState) :
    compile_check (pureRun f) content s = (.ok (f content), ⟨s.live, s.next + 1⟩) := by
  simp only [compile_check, pureRun, mkTemp, unlink]
  cases h : f content <;> simp [h, erase_cons_self]

theorem compile_lines_pure (f : List Line → Bool) (ls : List Line)
    (s : TmpState) :
    compile_lines (pureRun f) ls s = (.ok (f ls), ⟨s.live, s.next + 2⟩) := by
  simp only [compile_lines, mkTemp]
  rw [compile_check_pure]
  simp [unlink, erase_cons_self]

theorem detLoop_pure (f : List Line → Bool) (lines : List Line)
    (blk : List IncludeLine) (needed : List String) (s : TmpState) :
    detLoop (pureRun f) lines blk needed s =
      (.ok (detLoopP f lines blk needed), ⟨s.live, s.next + 2 * blk.length⟩) := by
  induction blk generalizing needed s with
  | nil => simp [detLoop, detLoopP]
  | cons inc rest ih =>
    simp only [detLoop, detLoopP, mkTemp]
    rw [compile_check_pure]
    simp only [unlink, erase_cons_self]
    rw [ih]
    simp only [Prod.mk.injEq, TmpState.mk.injEq, List.length_cons, true_and]
    omega

theorem determine_needed_pure (f : List Line → Bool) (blk : List IncludeLine)
    (lines : List Line) (s : TmpState) :
    determine_needed (pureRun f) blk lines s =
      (.ok (determine_neededP f blk lines),
        ⟨s.live, s.next + 2 * (1 + if f lines then blk.length else 0)⟩) := by
  simp only [determine_needed, mkTemp]
  rw [compile_check_pure]
  simp only [unlink, erase_cons_self]
  cases h : f lines with
  | false => simp [determine_neededP, h]
  | true =>
    simp only [determine_neededP, h, if_true]
    rw [detLoop_pure]
    simp only [Prod.mk.injEq, TmpState.mk.injEq, true_and]
    omega

theorem repairLoop_pure (f : List Line → Bool) (lines : List Line)
    (st en : Nat) (blk removed : List IncludeLine) (keep : List String)
    (s : TmpState) :
    ∃ n, repairLoop (pureRun f) lines st en blk removed keep s =
      (.ok (repairLoopP f lines st en blk removed keep), ⟨s.live, n⟩) := by
  induction removed generalizing keep s with
  | nil => exact ⟨s.next, rfl⟩
  | cons inc rest ih =>
    simp only [repairLoop, repairLoopP]
    rw [compile_lines_pure]
    cases h : f (rebuild_file lines st en blk (setInsert inc.text keep)) with
    | true => exact ⟨s.next + 2, by simp [h]⟩
    | false =>
      obtain ⟨n, hn⟩ := ih (setInsert inc.text keep) ⟨s.live, s.next + 2⟩
      exact ⟨n, by simp [h, hn]⟩

theorem process_file_pure (f : List Line → Bool) (fix : Bool)
    (lines : List Line) (s : TmpState) :
    ∃ n, process_file (pureRun f) fix lines s =
      (.ok (process_fileP f fix lines), ⟨s.live, n⟩) := by
  unfold process_file process_fileP
  cases hb : find_include_block lines with
  | none => exact ⟨s.next, rfl⟩
  | some info =>
    obtain ⟨st, en, blk⟩ := info
    simp only
    rw [determine_needed_pure]
    simp only
    cases hok : (determine_neededP f blk lines).2 with
    | false => simp only [hok, if_false, Bool.false_eq_true]; exact ⟨_, rfl⟩
    | true =>
      simp only [hok, if_true]
      cases fix with
      | false => exact ⟨_, rfl⟩
      | true =>
        simp only [if_true]
        rw [compile_lines_pure]
        simp only
        cases hc : f (rebuild_file lines st en blk
            (listToSet ((blk.filter (fun inc =>
              inc.text ∈ (determine_neededP f blk lines).1)).map
              (fun inc => inc.text)))) with
        | true =>
          simp only [hc, if_true]
          by_cases hrw : rebuild_file lines st en blk
              (listToSet ((blk.filter (fun inc =>
                inc.text ∈ (determine_neededP f blk lines).1)).map
                (fun inc => inc.text))) = lines
          · simp only [hrw, if_pos rfl]; exact ⟨_, rfl⟩
          · simp only [if_neg hrw]; exact ⟨_, rfl⟩
        | false =>
          simp only [hc, if_false, Bool.false_eq_true]
          obtain ⟨n, hn⟩ := repairLoop_pure f lines st en blk
            (blk.filter (fun inc => inc.text ∉ (determine_neededP f blk lines).1))
            (listToSet ((blk.filter (fun inc =>
              inc.text ∈ (determine_neededP f blk lines).1)).map
              (fun inc => inc.text)))
            ⟨s.live, s.next + 2 * (1 + if f lines = true then blk.length else 0) + 2⟩
          rw [hn]
          simp only
          cases hr : (repairLoopP f lines st en blk
            (blk.filter (fun inc => inc.text ∉ (determine_neededP f blk lines).1))
            (listToSet ((blk.filter (fun inc =>
              inc.text ∈ (determine_neededP f blk lines).1)).map
              (fun inc => inc.text)))).1 with
          | true =>
            simp only [hr, if_true]
            by_cases hrw : rebuild_file lines st en blk
                (repairLoopP f lines st en blk
                  (blk.filter (fun inc => inc.text ∉ (determine_neededP f blk lines).1))
                  (listToSet ((blk.filter (fun inc =>
                    inc.text ∈ (determine_neededP f blk lines).1)).map
                    (fun inc => inc.text)))).2 = lines
            · simp only [hrw, if_pos rfl]; exact ⟨n, rfl⟩
            · simp only [if_neg hrw]; exact ⟨n, rfl⟩
          | false => simp only [hr, if_false, Bool.false_eq_true]; exact ⟨n, rfl⟩

theorem mainLoop_pure (f : List Line → Bool) (fix : Bool)
    (files : List (List Line)) (ok : Bool) (s : TmpState) :
    ∃ n, mainLoop (pureRun f) fix files ok s =
      (.ok (files.foldl (fun acc l => (process_fileP f fix l).ok && acc) ok),
        ⟨s.live, n⟩) := by
  induction files generalizing ok s with
  | nil => exact ⟨s.next, rfl⟩
  | cons l rest ih =>
    simp only [mainLoop, List.foldl_cons]
    obtain ⟨n1, h1⟩ := process_file_pure f fix l s
    rw [h1]
    exact ih ((process_fileP f fix l).ok && ok) ⟨s.live, n1⟩

/-- Bool fold used by `main`'s per-file loop equals `List.all`. -/
theorem foldl_and_eq_all (r : List Line → Bool) (files : List (List Line))
    (ok : Bool) :
    files.foldl (fun acc l => r l && acc) ok = (files.all r && ok) := by
  induction files generalizing ok with
  | nil => simp
  | cons l rest ih =>
    simp only [List.foldl_cons, List.all_cons, ih]
    cases r l <;> cases ok <;> simp

/-! ## Helper lemmas -/

theorem setInsert_mem (t u : String) (s : List String) :
    t ∈ setInsert u s ↔ t = u ∨ t ∈ s := by
  unfold setInsert
  by_cases h : u ∈ s
  · simp only [if_pos h]
    constructor
    · exact Or.inr
    · rintro (rfl | hm) <;> assumption
  · simp [if_neg h, List.mem_cons]

theorem mem_detLoopP (f : List Line → Bool) (lines : List Line)
    (blk : List IncludeLine) (acc : List String) (t : String) :
    t ∈ detLoopP f lines blk acc ↔
      t ∈ acc ∨ ∃ inc ∈ blk, inc.text = t ∧ f (removeIdx lines inc.idx) = false := by
  induction blk generalizing acc with
  | nil => simp [detLoopP]
  | cons inc rest ih =>
    simp only [detLoopP]
    cases h : f (removeIdx lines inc.idx) with
    | true =>
      simp only [if_true]
      rw [ih]
      simp only [List.mem_cons]
      constructor
      · rintro (ha | ⟨i, hi, rfl, hf⟩)
        · exact Or.inl ha
        · exact Or.inr ⟨i, Or.inr hi, rfl, hf⟩
      · rintro (ha | ⟨i, (rfl | hi), rfl, hf⟩)
        · exact Or.inl ha
        · rw [h] at hf; cases hf
        · exact Or.inr ⟨i, hi, rfl, hf⟩
    | false =>
      simp only [Bool.false_eq_true, if_false]
      rw [ih, setInsert_mem]
      simp only [List.mem_cons]
      constructor
      · rintro ((rfl | ha) | ⟨i, hi, rfl, hf⟩)
        · exact Or.inr ⟨inc, Or.inl rfl, rfl, h⟩
        · exact Or.inl ha
        · exact Or.inr ⟨i, Or.inr hi, rfl, hf⟩
      · rintro (ha | ⟨i, (rfl | hi), rfl, hf⟩)
        · exact Or.inl (Or.inr ha)
        · exact Or.inl (Or.inl rfl)
        · exact Or.inr ⟨i, hi, rfl, hf⟩

theorem removeIdxAux_mem (k i : Nat) (ls : List Line) (x : Line) :
    x ∈ removeIdxAux k i ls ↔ ∃ m, i + m ≠ k ∧ ls.get? m = some x := by
  induction ls generalizing i with
  | nil => simp [removeIdxAux]
  | cons l rest ih =>
    simp only [removeIdxAux]
    by_cases h : i = k
    · simp only [if_pos h, ih]
      constructor
      · rintro ⟨m, hm, hg⟩
        exact ⟨m + 1, by omega, hg⟩
      · rintro ⟨m, hm, hg⟩
        match m, hg with
        | 0, hg => exact absurd h (by simpa using hm)
        | m + 1, hg => exact ⟨m, by omega, hg⟩
    · simp only [if_neg h, List.mem_cons]
      constructor
      · rintro (rfl | hx)
        · exact ⟨0, by omega, rfl⟩
        · obtain ⟨m, hm, hg⟩ := (ih (i + 1)).1 hx
          exact ⟨m + 1, by omega, hg⟩
      · rintro ⟨m, hm, hg⟩
        match m, hg with
        | 0, hg => exact Or.inl (by simpa using hg.symm)
        | m + 1, hg => exact Or.inr ((ih (i + 1)).2 ⟨m, by omega, hg⟩)

theorem mem_removeIdx (lines : List Line) (k : Nat) (x : Line) :
    x ∈ removeIdx lines k ↔ ∃ m, m ≠ k ∧ lines.get? m = some x := by
  unfold removeIdx
  rw [removeIdxAux_mem]
  simp

theorem removeIdxAux_shift (k i : Nat) (ls : List Line) :
    removeIdxAux (k + 1) (i + 1) ls = removeIdxAux k i ls := by
  induction ls generalizing i with
  | nil => rfl
  | cons l rest ih =>
    simp only [removeIdxAux]
    by_cases h : i = k
    · simp [h, ih]
    · have : ¬ (i + 1 = k + 1) := by omega
      simp [h, this, ih]

theorem removeIdxAux_high (k i : Nat) (ls : List Line) (h : k < i) :
    removeIdxAux k i ls = ls := by
  induction ls generalizing i with
  | nil => rfl
  | cons l rest ih =>
    have : ¬ (i = k) := by omega
    simp [removeIdxAux, this, ih (i + 1) (by omega)]

/-- The candidate really is the original with exactly the line at index `k`
deleted. -/
theorem removeIdx_eq_take_drop (lines : List Line) (k : Nat)
    (h : k < lines.length) :
    removeIdx lines k = lines.take k ++ lines.drop (k + 1) := by
  induction lines generalizing k with
  | nil => simp at h
  | cons l rest ih =>
    cases k with
    | zero =>
      simp only [removeIdx, removeIdxAux, if_pos rfl, List.take_zero,
        List.drop_succ_cons, List.drop_zero, List.nil_append]
      exact removeIdxAux_high 0 1 rest (by omega)
    | succ k =>
      simp only [removeIdx, removeIdxAux, List.take_succ_cons,
        List.drop_succ_cons, List.cons_append]
      have h0 : ¬ (0 = k + 1) := by omega
      simp only [if_neg h0]
      have := removeIdxAux_shift k 0 rest
      rw [show (0 : Nat) + 1 = 1 from rfl] at this
      rw [this]
      exact congrArg (l :: ·) (ih k (by simpa using h))

theorem blockLoop_mem (ls : List Line) (e : Nat) (inc : IncludeLine)
    (h : inc ∈ (blockLoop e ls).2) :
    ∃ m, inc.idx = e + m ∧ ls.get? m = some inc.text ∧
      matchInclude inc.text = some inc.target := by
  induction ls generalizing e with
  | nil => simp [blockLoop] at h
  | cons l rest ih =>
    simp only [blockLoop] at h
    cases hm : matchInclude l with
    | some t =>
      rw [hm] at h
      simp only [List.mem_cons] at h
      cases h with
      | inl h => subst h; exact ⟨0, by simp, rfl, hm⟩
      | inr h =>
        obtain ⟨m, hidx, hg, hmt⟩ := ih (e + 1) h
        exact ⟨m + 1, by omega, hg, hmt⟩
    | none =>
      rw [hm] at h
      by_cases hb : isBlank l = true
      · rw [if_pos hb] at h
        obtain ⟨m, hidx, hg, hmt⟩ := ih (e + 1) h
        exact ⟨m + 1, by omega, hg, hmt⟩
      · rw [if_neg hb] at h
        simp at h

theorem find_include_block_get (lines : List Line) (st en : Nat)
    (blk : List IncludeLine)
    (h : find_include_block lines = some (st, en, blk)) :
    ∀ inc ∈ blk, lines.get? inc.idx = some inc.text ∧
      matchInclude inc.text = some inc.target := by
  intro inc hinc
  unfold find_include_block at h
  cases hs : findStart 0 lines with
  | none => rw [hs] at h; cases h
  | some s0 =>
    rw [hs] at h
    simp only [Option.some.injEq, Prod.mk.injEq] at h
    obtain ⟨rfl, -, hblk⟩ := h
    rw [← hblk] at hinc
    obtain ⟨m, hidx, hg, hmt⟩ := blockLoop_mem _ _ _ hinc
    refine ⟨?_, hmt⟩
    rw [hidx, ← hg, ← List.get?_drop]

/-- Helper: the driver's exit status under a never-raising oracle is `0`
iff every file's `process_file` returned `True`; the whole file list is
always consumed and no temporary files are left behind. -/
theorem mainRun_pure (f : List Line → Bool) (fix : Bool)
    (files : List (List Line)) (s : TmpState) :
    ∃ n, mainRun (pureRun f) fix files s =
      (.ok (if files.all (fun l => (process_fileP f fix l).ok) then 0 else 1),
        ⟨s.live, n⟩) := by
  obtain ⟨n, hn⟩ := mainLoop_pure f fix files true s
  refine ⟨n, ?_⟩
  unfold mainRun
  rw [hn, foldl_and_eq_all]
  simp

/-! ## Claim C2 (corrected) -/

/-- Claim C2, amended: a compilation check whose compiler invocation
completes with an exit status (zero or not) deletes both of its temporary
files (the candidate source unit and the object artifact) before
returning: the set of live temporary files is exactly restored.  (The
original claim extended this to a raising invocation; `c2_counterexample`
refutes that reading.) -/
theorem c2_compile_cleanup (run : RunBehavior) (ls : List Line)
    (rc : Int) (s : TmpState) (h : run ls = .ok rc) :
    compile_lines run ls s = (.ok (rc == 0), ⟨s.live, s.next + 2⟩) ∧
    compile_check run ls s = (.ok (rc == 0), ⟨s.live, s.next + 1⟩) := by
  constructor
  · simp only [compile_lines, compile_check, mkTemp, h, unlink, erase_cons_self]
  · simp only [compile_check, mkTemp, h, unlink, erase_cons_self]

theorem c2_compile_cleanup_witness :
    ((fun _ : List Line => (.ok 0 : Except PyExn Int)) ["int x;\n"] = .ok 0) ∧
    (compile_lines (fun _ => .ok 0) ["int x;\n"] ⟨[], 0⟩ =
        (.ok ((0 : Int) == 0), ⟨[], 0 + 2⟩) ∧
      compile_check (fun _ => .ok 0) ["int x;\n"] ⟨[], 0⟩ =
        (.ok ((0 : Int) == 0), ⟨[], 0 + 1⟩)) :=
  ⟨rfl, c2_compile_cleanup (fun _ => .ok 0) ["int x;\n"] 0 ⟨[], 0⟩ rfl⟩

/-- Claim C2 as stated is false: when the compiler invocation raises
(e.g. a missing compiler executable), `compile_lines` reaches neither
`os.unlink`, and both the temporary source (id 0) and the temporary object
(id 1) are leaked: the live set afterwards is `[1, 0]`, not `[]`. -/
theorem c2_counterexample :
    compile_lines (fun _ => .error .fileNotFound) ["int x;\n"] ⟨[], 0⟩ =
      (.error .fileNotFound, ⟨[1, 0], 2⟩) ∧
    (⟨[1, 0], 2⟩ : TmpState).live ≠ [] := by
  constructor
  · rfl
  · simp

/-! ## Claim C3 (corrected) -/

/-- Claim C3, amended: a compiler invocation that completes with a
non-zero exit status is an ordinary compile failure, and under an oracle
that never raises the run always completes its entire file list, each
file's success aggregated into the exit status (`0` iff every file
succeeded); but an invocation that raises (e.g. a missing compiler
executable) is NOT handled — `c3_counterexample` shows the exception
escaping `main`. -/
theorem c3_run_completes (f : List Line → Bool) (fix : Bool)
    (files : List (List Line)) (s : TmpState) :
    ∃ n, mainRun (pureRun f) fix files s =
      (.ok (if files.all (fun l => (process_fileP f fix l).ok) then 0 else 1),
        ⟨s.live, n⟩) :=
  mainRun_pure f fix files s

/-- Claim C3 as stated is false: with a missing compiler executable
(`subprocess.run` raising on every invocation), the very first compile of
the run propagates the exception out of `main` — the run is aborted with
an uncaught exception (and a leaked pair of temporary files) instead of
completing its file list. -/
theorem c3_counterexample :
    mainRun (fun _ => .error .fileNotFound) true
      [["#include <a.h>\n", "int x;\n"], ["int y;\n"]] ⟨[], 0⟩ =
      (.error .fileNotFound, ⟨[1, 0], 2⟩) := by
  rfl

/-! ## Claim C5 (confirmed) -/

/-- Claim C5: when the baseline compilation of a file (that has an include
block) fails, `determine_needed` returns the empty needed set together
with the distinct `baseline_ok = False` signal, `process_file` returns
`False` with the baseline-error report and the file byte-identical to its
input, and any run containing the file exits with status 1. -/
theorem c5_baseline_broken (f : List Line → Bool) (fix : Bool)
    (lines : List Line) (st en : Nat) (blk : List IncludeLine)
    (hb : find_include_block lines = some (st, en, blk))
    (hf : f lines = false) :
    determine_neededP f blk lines = ([], false) ∧
    process_fileP f fix lines = ⟨false, lines, .errBaseline⟩ ∧
    (∀ s, (process_file (pureRun f) fix lines s).1 =
      .ok ⟨false, lines, .errBaseline⟩) ∧
    (∀ files s, lines ∈ files →
      (mainRun (pureRun f) fix files s).1 = .ok 1) := by
  have hdet : determine_neededP f blk lines = ([], false) := by
    simp [determine_neededP, hf]
  have hP : process_fileP f fix lines = ⟨false, lines, .errBaseline⟩ := by
    unfold process_fileP
    rw [hb]
    simp only [hdet, Bool.false_eq_true, if_false]
  refine ⟨hdet, hP, ?_, ?_⟩
  · intro s
    obtain ⟨n, hn⟩ := process_file_pure f fix lines s
    rw [hn, hP]
  · intro files s hmem
    obtain ⟨n, hn⟩ := mainRun_pure f fix files s
    have hall : files.all (fun l => (process_fileP f fix l).ok) = false := by
      rw [List.all_eq_false]
      exact ⟨lines, hmem, by rw [hP]; simp⟩
    rw [hn]
    simp [hall]

theorem c5_baseline_broken_witness :
    (find_include_block ["#include <a.h>\n", "int x;\n"] =
        some (0, 1, [⟨0, "#include <a.h>\n", "a.h"⟩]) ∧
      (fun _ : List Line => false) ["#include <a.h>\n", "int x;\n"] = false) ∧
    (determine_neededP (fun _ => false) [⟨0, "#include <a.h>\n", "a.h"⟩]
        ["#include <a.h>\n", "int x;\n"] = ([], false) ∧
      process_fileP (fun _ => false) true ["#include <a.h>\n", "int x;\n"] =
        ⟨false, ["#include <a.h>\n", "int x;\n"], .errBaseline⟩ ∧
      (∀ s, (process_file (pureRun (fun _ => false)) true
          ["#include <a.h>\n", "int x;\n"] s).1 =
        .ok ⟨false, ["#include <a.h>\n", "int x;\n"], .errBaseline⟩) ∧
      (∀ files s, ["#include <a.h>\n", "int x;\n"] ∈ files →
        (mainRun (pureRun (fun _ => false)) true files s).1 = .ok 1)) :=
  ⟨⟨by decide, rfl⟩,
    c5_baseline_broken (fun _ => false) true ["#include <a.h>\n", "int x;\n"]
      0 1 [⟨0, "#include <a.h>\n", "a.h"⟩] (by decide) rfl⟩

/-! ## Claim C4 (corrected) -/

/-- Claim C4, amended: with a compiling baseline each include is tested
independently — the candidate is the full original sequence with exactly
that one line deleted, classification takes one invocation per include
plus the baseline one — and an include's text lands in the needed set iff
the candidate of SOME occurrence of that text fails to compile; when no
two includes in the block share the same text this is the claimed
per-include iff.  (For duplicated texts the per-include iff fails:
`c4_counterexample`.) -/
theorem c4_independent_trials (f : List Line → Bool) (lines : List Line)
    (blk : List IncludeLine) (hbase : f lines = true) :
    (∀ t, t ∈ (determine_neededP f blk lines).1 ↔
      ∃ inc ∈ blk, inc.text = t ∧ f (removeIdx lines inc.idx) = false) ∧
    ((blk.map (fun inc => inc.text)).Nodup →
      ∀ inc ∈ blk, (inc.text ∈ (determine_neededP f blk lines).1 ↔
        f (removeIdx lines inc.idx) = false)) ∧
    (∀ inc ∈ blk, inc.idx < lines.length →
      removeIdx lines inc.idx = lines.take inc.idx ++ lines.drop (inc.idx + 1)) ∧
    (∀ s, determine_needed (pureRun f) blk lines s =
      (.ok (determine_neededP f blk lines),
        ⟨s.live, s.next + 2 * (1 + blk.length)⟩)) := by
  have hchar : ∀ t, t ∈ (determine_neededP f blk lines).1 ↔
      ∃ inc ∈ blk, inc.text = t ∧ f (removeIdx lines inc.idx) = false := by
    intro t
    simp only [determine_neededP, hbase, if_true]
    rw [mem_detLoopP]
    simp
  refine ⟨hchar, ?_, ?_, ?_⟩
  · intro hnd inc hinc
    rw [hchar inc.text]
    constructor
    · rintro ⟨inc', hinc', htxt, hf⟩
      have : inc' = inc := List.inj_on_of_nodup_map hnd hinc' hinc htxt
      rwa [← this]
    · intro hf
      exact ⟨inc, hinc, rfl, hf⟩
  · intro inc _ hidx
    exact removeIdx_eq_take_drop lines inc.idx hidx
  · intro s
    rw [determine_needed_pure]
    simp [hbase]

theorem c4_independent_trials_witness :
    ((fun _ : List Line => true) ["#include <a.h>\n", "int x;\n"] = true) ∧
    ((∀ t, t ∈ (determine_neededP (fun _ => true)
        [⟨0, "#include <a.h>\n", "a.h"⟩] ["#include <a.h>\n", "int x;\n"]).1 ↔
        ∃ inc ∈ [(⟨0, "#include <a.h>\n", "a.h"⟩ : IncludeLine)], inc.text = t ∧
          (fun _ : List Line => true)
            (removeIdx ["#include <a.h>\n", "int x;\n"] inc.idx) = false) ∧
      (([(⟨0, "#include <a.h>\n", "a.h"⟩ : IncludeLine)].map
          (fun inc => inc.text)).Nodup →
        ∀ inc ∈ [(⟨0, "#include <a.h>\n", "a.h"⟩ : IncludeLine)],
          (inc.text ∈ (determine_neededP (fun _ => true)
            [⟨0, "#include <a.h>\n", "a.h"⟩]
            ["#include <a.h>\n", "int x;\n"]).1 ↔
          (fun _ : List Line => true)
            (removeIdx ["#include <a.h>\n", "int x;\n"] inc.idx) = false)) ∧
      (∀ inc ∈ [(⟨0, "#include <a.h>\n", "a.h"⟩ : IncludeLine)],
        inc.idx < (["#include <a.h>\n", "int x;\n"] : List Line).length →
        removeIdx ["#include <a.h>\n", "int x;\n"] inc.idx =
          (["#include <a.h>\n", "int x;\n"] : List Line).take inc.idx ++
            (["#include <a.h>\n", "int x;\n"] : List Line).drop (inc.idx + 1)) ∧
      (∀ s, determine_needed (pureRun (fun _ => true))
          [⟨0, "#include <a.h>\n", "a.h"⟩] ["#include <a.h>\n", "int x;\n"] s =
        (.ok (determine_neededP (fun _ => true)
            [⟨0, "#include <a.h>\n", "a.h"⟩] ["#include <a.h>\n", "int x;\n"]),
          ⟨s.live, s.next + 2 * (1 + 1)⟩))) :=
  ⟨rfl, c4_independent_trials (fun _ => true) ["#include <a.h>\n", "int x;\n"]
    [⟨0, "#include <a.h>\n", "a.h"⟩] rfl⟩

/-- Claim C4 as stated is false for duplicated include texts: in the file
`[A, B, A]` with an oracle rejecting exactly `[B, A]`, deleting the first
`A` fails so `A` is classified needed, yet the candidate for the third
line (`[A, B]`) compiles — that include is not "removable iff its
candidate compiles". -/
theorem c4_counterexample :
    (find_include_block
        ["#include <a.h>\n", "#include <b.h>\n", "#include <a.h>\n"] =
      some (0, 3, [⟨0, "#include <a.h>\n", "a.h"⟩,
        ⟨1, "#include <b.h>\n", "b.h"⟩, ⟨2, "#include <a.h>\n", "a.h"⟩])) ∧
    ((fun l : List Line => decide (l ≠ ["#include <b.h>\n", "#include <a.h>\n"]))
        ["#include <a.h>\n", "#include <b.h>\n", "#include <a.h>\n"] = true) ∧
    ((fun l : List Line => decide (l ≠ ["#include <b.h>\n", "#include <a.h>\n"]))
        (removeIdx
          ["#include <a.h>\n", "#include <b.h>\n", "#include <a.h>\n"] 2) = true) ∧
    ("#include <a.h>\n" ∈ (determine_neededP
        (fun l => decide (l ≠ ["#include <b.h>\n", "#include <a.h>\n"]))
        [⟨0, "#include <a.h>\n", "a.h"⟩, ⟨1, "#include <b.h>\n", "b.h"⟩,
          ⟨2, "#include <a.h>\n", "a.h"⟩]
        ["#include <a.h>\n", "#include <b.h>\n", "#include <a.h>\n"]).1) := by
  decide

/-! ## Claim C10 (confirmed) -/

/-- Claim C10: for an oracle whose verdict depends only on the set of
distinct lines present, an include whose exact line text occurs at two or
more positions of the block is never classified needed when the baseline
compiles — deleting one occurrence leaves the other, so every candidate is
equivalent to the baseline for such an oracle. -/
theorem c10_duplicate_never_needed (f : List Line → Bool) (lines : List Line)
    (st en : Nat) (blk : List IncludeLine) (inc1 inc2 : IncludeLine)
    (hins : ∀ l1 l2 : List Line, (∀ x, x ∈ l1 ↔ x ∈ l2) → f l1 = f l2)
    (hb : find_include_block lines = some (st, en, blk))
    (h1 : inc1 ∈ blk) (h2 : inc2 ∈ blk) (hne : inc1.idx ≠ inc2.idx)
    (htxt : inc1.text = inc2.text) (hbase : f lines = true) :
    inc1.text ∉ (determine_neededP f blk lines).1 := by
  intro hmem
  have hchar := (mem_detLoopP f lines blk [] inc1.text).1 (by
    simpa [determine_neededP, hbase] using hmem)
  simp only [List.not_mem_nil, false_or] at hchar
  obtain ⟨inc, hinc, htxteq, hfail⟩ := hchar
  -- the candidate has the same distinct-line set as the baseline
  have hget := find_include_block_get lines st en blk hb
  have hgi : lines.get? inc.idx = some inc.text := (hget inc hinc).1
  have hg1 : lines.get? inc1.idx = some inc1.text := (hget inc1 h1).1
  have hg2 : lines.get? inc2.idx = some inc2.text := (hget inc2 h2).1
  have hequiv : ∀ x, x ∈ removeIdx lines inc.idx ↔ x ∈ lines := by
    intro x
    rw [mem_removeIdx]
    constructor
    · rintro ⟨m, -, hg⟩
      exact List.get?_mem hg
    · intro hx
      obtain ⟨m, hm⟩ := List.get?_of_mem hx
      by_cases hmi : m = inc.idx
      · subst hmi
        have hx_eq : x = inc.text := by rw [hm] at hgi; exact Option.some.inj hgi
        by_cases hii : inc.idx = inc1.idx
        · refine ⟨inc2.idx, by omega, ?_⟩
          rw [hg2, hx_eq, htxteq, htxt]
        · refine ⟨inc1.idx, by omega, ?_⟩
          rw [hg1, hx_eq, htxteq]
      · exact ⟨m, hmi, hm⟩
  have : f (removeIdx lines inc.idx) = f lines := hins _ _ hequiv
  rw [hfail, hbase] at this
  cases this

theorem c10_duplicate_never_needed_witness :
    ((∀ l1 l2 : List Line, (∀ x, x ∈ l1 ↔ x ∈ l2) →
        (fun l : List Line => decide ("int x;\n" ∈ l)) l1 =
          (fun l : List Line => decide ("int x;\n" ∈ l)) l2) ∧
      find_include_block
          ["#include <a.h>\n", "#include <a.h>\n", "int x;\n"] =
        some (0, 2, [⟨0, "#include <a.h>\n", "a.h"⟩,
          ⟨1, "#include <a.h>\n", "a.h"⟩]) ∧
      (⟨0, "#include <a.h>\n", "a.h"⟩ : IncludeLine) ∈
        [(⟨0, "#include <a.h>\n", "a.h"⟩ : IncludeLine),
          ⟨1, "#include <a.h>\n", "a.h"⟩] ∧
      (⟨1, "#include <a.h>\n", "a.h"⟩ : IncludeLine) ∈
        [(⟨0, "#include <a.h>\n", "a.h"⟩ : IncludeLine),
          ⟨1, "#include <a.h>\n", "a.h"⟩] ∧
      (0 : Nat) ≠ 1 ∧
      (fun l : List Line => decide ("int x;\n" ∈ l))
        ["#include <a.h>\n", "#include <a.h>\n", "int x;\n"] = true) ∧
    "#include <a.h>\n" ∉ (determine_neededP
        (fun l => decide ("int x;\n" ∈ l))
        [⟨0, "#include <a.h>\n", "a.h"⟩, ⟨1, "#include <a.h>\n", "a.h"⟩]
        ["#include <a.h>\n", "#include <a.h>\n", "int x;\n"]).1 :=
  ⟨⟨fun l1 l2 h => decide_eq_decide.mpr (h "int x;\n"), by decide, by decide,
      by decide, by decide, by decide⟩,
    c10_duplicate_never_needed
      (fun l => decide ("int x;\n" ∈ l))
      ["#include <a.h>\n", "#include <a.h>\n", "int x;\n"] 0 2
      [⟨0, "#include <a.h>\n", "a.h"⟩, ⟨1, "#include <a.h>\n", "a.h"⟩]
      ⟨0, "#include <a.h>\n", "a.h"⟩ ⟨1, "#include <a.h>\n", "a.h"⟩
      (fun l1 l2 h => decide_eq_decide.mpr (h "int x;\n"))
      (by decide) (by decide) (by decide) (by decide) rfl (by decide)⟩

/-! ## Claims C6 and C7: structure of `rebuild_file` -/

theorem dedupFirstAux_mem (t : String) (l seen : List String) :
    t ∈ dedupFirstAux l seen ↔ t ∈ l ∧ t ∉ seen := by
  induction l generalizing seen with
  | nil => simp [dedupFirstAux]
  | cons x xs ih =>
    simp only [dedupFirstAux]
    by_cases hx : x ∈ seen
    · rw [if_pos hx, ih]
      simp only [List.mem_cons]
      constructor
      · rintro ⟨h1, h2⟩; exact ⟨Or.inr h1, h2⟩
      · rintro ⟨rfl | h1, h2⟩
        · exact absurd hx h2
        · exact ⟨h1, h2⟩
    · rw [if_neg hx]
      simp only [List.mem_cons, ih]
      constructor
      · rintro (rfl | ⟨h1, h2⟩)
        · exact ⟨Or.inl rfl, hx⟩
        · exact ⟨Or.inr h1, fun hc => h2 (Or.inr hc)⟩
      · rintro ⟨rfl | h1, h2⟩
        · exact Or.inl rfl
        · by_cases hxx : t = x
          · exact Or.inl hxx
          · exact Or.inr ⟨h1, by simp [hxx, h2]⟩

theorem dedupFirstAux_nodup (l seen : List String) :
    (dedupFirstAux l seen).Nodup := by
  induction l generalizing seen with
  | nil => simp [dedupFirstAux]
  | cons x xs ih =>
    simp only [dedupFirstAux]
    by_cases hx : x ∈ seen
    · rw [if_pos hx]; exact ih seen
    · rw [if_neg hx]
      refine List.Nodup.cons ?_ (ih (x :: seen))
      intro hc
      exact ((dedupFirstAux_mem x xs (x :: seen)).1 hc).2 (List.mem_cons_self x seen)

theorem buildNewBlockAux_spec (keep : List String) (seen : List String)
    (blk : List IncludeLine) :
    buildNewBlockAux keep seen blk =
      (dedupFirstAux ((blk.map (fun inc => inc.text)).filter
        (fun t => t ∈ keep)) seen).map terminateLine := by
  induction blk generalizing seen with
  | nil => simp [buildNewBlockAux, dedupFirstAux]
  | cons inc rest ih =>
    simp only [buildNewBlockAux, List.map_cons, List.filter_cons]
    by_cases hk : inc.text ∈ keep
    · rw [if_pos (decide_eq_true hk)]
      simp only [dedupFirstAux]
      by_cases hs : inc.text ∈ seen
      · rw [if_neg (fun hcon => hcon.2 hs), if_pos hs]
        exact ih seen
      · rw [if_pos ⟨hk, hs⟩, if_neg hs, List.map_cons]
        exact congrArg (terminateLine inc.text :: ·) (ih (inc.text :: seen))
    · rw [if_neg (fun hcon => hk hcon.1), if_neg (by simp [hk])]
      exact ih seen

/-- The kept block is exactly: the block's texts, filtered to the keep
set, duplicates collapsed to the first occurrence, each line terminated
with a line break. -/
theorem buildNewBlock_spec (blk : List IncludeLine) (keep : List String) :
    buildNewBlock blk keep =
      (dedupFirst ((blk.map (fun inc => inc.text)).filter
        (fun t => t ∈ keep))).map terminateLine :=
  buildNewBlockAux_spec keep [] blk

theorem endsNL_terminateLine (t : Line) : endsNL (terminateLine t) = true := by
  unfold terminateLine
  by_cases h : endsNL t = true
  · rw [if_pos h]; exact h
  · rw [if_neg h]
    have : ((t ++ "\n").data).getLast? = some '\n' := by
      rw [String.data_append]
      exact List.getLast?_concat _
    simp [endsNL, this]

/-- `sepNeeded` decoded: separator condition holds iff `end` is at or past
the end of the file or the line at `end` is non-blank. -/
theorem sepNeeded_iff (lines : List Line) (e : Nat) :
    sepNeeded lines e = true ↔
      (lines.length ≤ e ∨ isBlank (lines.getD e "") = false) := by
  unfold sepNeeded
  rw [Bool.or_eq_true, decide_eq_true_iff, Bool.not_eq_true']

/-- Claim C6: `rebuild_file` returns `lines[:start] ++ new_block ++
lines[end:]` — the prefix and suffix are preserved byte-for-byte — where
the new block consists of the kept include texts in original relative
order, duplicates collapsed to the first occurrence, each terminated with a
line break, followed by the (possible) blank separator. -/
theorem c6_rebuild_structure (lines : List Line) (s e : Nat)
    (blk : List IncludeLine) (keep : List String) :
    rebuild_file lines s e blk keep =
      lines.take s ++
        ((dedupFirst ((blk.map (fun inc => inc.text)).filter
            (fun t => t ∈ keep))).map terminateLine ++
          (if !(buildNewBlock blk keep).isEmpty && sepNeeded lines e
            then ["\n"] else [])) ++
        lines.drop e ∧
    (∀ l ∈ buildNewBlock blk keep, endsNL l = true) := by
  refine ⟨?_, ?_⟩
  · show (let nb := buildNewBlock blk keep
      let nb' := if !nb.isEmpty && sepNeeded lines e then nb ++ ["\n"] else nb
      lines.take s ++ nb' ++ lines.drop e) = _
    simp only
    by_cases hc : (!(buildNewBlock blk keep).isEmpty && sepNeeded lines e) = true
    · rw [if_pos hc, if_pos hc, buildNewBlock_spec]
    · rw [if_neg hc, if_neg hc, buildNewBlock_spec]
      simp
  · intro l hl
    rw [buildNewBlock_spec] at hl
    obtain ⟨t, -, rfl⟩ := List.mem_map.1 hl
    exact endsNL_terminateLine t

/-- Claim C7, amended: the blank separator is appended iff the new block
is non-empty AND (`end` is at or past the end of the file OR the line at
`end` is non-blank).  The original claim omitted the end-of-file disjunct;
`c7_counterexample` shows a separator appended when no line follows the
block. -/
theorem c7_separator_condition (lines : List Line) (s e : Nat)
    (blk : List IncludeLine) (keep : List String) :
    rebuild_file lines s e blk keep =
      lines.take s ++ buildNewBlock blk keep ++
        (if (buildNewBlock blk keep ≠ [] ∧
            (lines.length ≤ e ∨ isBlank (lines.getD e "") = false))
          then ["\n"] else []) ++
        lines.drop e := by
  show (let nb := buildNewBlock blk keep
    let nb' := if !nb.isEmpty && sepNeeded lines e then nb ++ ["\n"] else nb
    lines.take s ++ nb' ++ lines.drop e) = _
  simp only
  by_cases h : (buildNewBlock blk keep ≠ [] ∧
      (lines.length ≤ e ∨ isBlank (lines.getD e "") = false))
  · rw [if_pos h]
    have hc : (!(buildNewBlock blk keep).isEmpty && sepNeeded lines e) = true := by
      rw [Bool.and_eq_true, Bool.not_eq_true']
      refine ⟨?_, (sepNeeded_iff lines e).2 h.2⟩
      cases hnb : buildNewBlock blk keep with
      | nil => exact absurd hnb h.1
      | cons a l => rfl
    rw [if_pos hc]
    simp [List.append_assoc]
  · rw [if_neg h]
    have hc : (!(buildNewBlock blk keep).isEmpty && sepNeeded lines e) = false := by
      rcases not_and_or.mp h with h1 | h2
      · have h1' : buildNewBlock blk keep = [] := not_not.mp h1
        rw [h1']
        rfl
      · have hs : sepNeeded lines e = false := by
          rcases Bool.eq_false_or_eq_true (sepNeeded lines e) with h' | h'
          · exact absurd ((sepNeeded_iff lines e).1 h') h2
          · exact h'
        rw [hs]
        exact Bool.and_false _
    rw [if_neg (by simp [hc])]
    simp

/-- Claim C7 as stated is false at end-of-file: for the one-line file
consisting only of an include (block `start = 0`, `end = 1`), there is no
line following the block, yet `rebuild_file` appends a blank separator
line. -/
theorem c7_counterexample :
    rebuild_file ["#include <a.h>\n"] 0 1 [⟨0, "#include <a.h>\n", "a.h"⟩]
        ["#include <a.h>\n"] =
      ["#include <a.h>\n", "\n"] ∧
    (["#include <a.h>\n"] : List Line).length ≤ 1 := by
  decide

/-! ## Claim C1: fix-mode commit-or-unchanged and the repair loop -/

/-- The repair loop finds the FIRST prefix of the removed includes whose
restoration compiles, or reports failure after trying them all. -/
theorem repairLoopP_spec (f : List Line → Bool) (lines : List Line)
    (st en : Nat) (blk : List IncludeLine) (removed : List IncludeLine)
    (keep : List String) :
    ((repairLoopP f lines st en blk removed keep).1 = true →
      ∃ m, m < removed.length ∧
        (repairLoopP f lines st en blk removed keep).2 =
          addTexts keep (removed.take (m + 1)) ∧
        f (rebuild_file lines st en blk
          (addTexts keep (removed.take (m + 1)))) = true ∧
        (∀ j, j < m → f (rebuild_file lines st en blk
          (addTexts keep (removed.take (j + 1)))) = false)) ∧
    ((repairLoopP f lines st en blk removed keep).1 = false →
      ∀ j, j < removed.length → f (rebuild_file lines st en blk
        (addTexts keep (removed.take (j + 1)))) = false) := by
  induction removed generalizing keep with
  | nil =>
    refine ⟨?_, ?_⟩
    · intro h; cases h
    · intro _ j hj; cases hj
  | cons inc rest ih =>
    cases hf : f (rebuild_file lines st en blk (setInsert inc.text keep)) with
    | true =>
      have hP : repairLoopP f lines st en blk (inc :: rest) keep =
          (true, setInsert inc.text keep) := by
        simp [repairLoopP, hf]
      refine ⟨?_, ?_⟩
      · intro _
        refine ⟨0, by simp, ?_, ?_, ?_⟩
        · rw [hP]
          rfl
        · simpa using hf
        · intro j hj; cases hj
      · intro h; rw [hP] at h; cases h
    | false =>
      have hP : repairLoopP f lines st en blk (inc :: rest) keep =
          repairLoopP f lines st en blk rest (setInsert inc.text keep) := by
        simp [repairLoopP, hf]
      obtain ⟨ih1, ih2⟩ := ih (setInsert inc.text keep)
      refine ⟨?_, ?_⟩
      · intro h
        rw [hP] at h
        obtain ⟨m, hm, hkeep, hok, hprev⟩ := ih1 h
        refine ⟨m + 1, by simpa using Nat.succ_lt_succ hm, ?_, ?_, ?_⟩
        · rw [hP, hkeep]; rfl
        · exact hok
        · intro j hj
          cases j with
          | zero => simpa using hf
          | succ j' => exact hprev j' (by omega)
      · intro h j hj
        rw [hP] at h
        cases j with
        | zero => simpa using hf
        | succ j' => exact ih2 h j' (by simpa using Nat.lt_of_succ_lt_succ hj)

/-- Claim C1: in fix mode, for any deterministic oracle accepting the
baseline, `process_file` either succeeds with final on-disk content the
oracle accepts (verified before any write) or fails leaving the file
byte-identical to its input; when the reduced block fails the repair loop
behaves as `c1RepairClause` states. -/
theorem c1_fix_commit_or_unchanged (f : List Line → Bool) (lines : List Line)
    (hbase : f lines = true) :
    ((process_fileP f true lines).ok = true →
      f (process_fileP f true lines).out = true) ∧
    ((process_fileP f true lines).ok = false →
      (process_fileP f true lines).out = lines ∧
      (process_fileP f true lines).outcome = .errRepair) ∧
    (∀ s, (process_file (pureRun f) true lines s).1 =
      .ok (process_fileP f true lines)) ∧
    c1RepairClause f lines := by
  have hbridge : ∀ s, (process_file (pureRun f) true lines s).1 =
      .ok (process_fileP f true lines) := by
    intro s
    obtain ⟨n, hn⟩ := process_file_pure f true lines s
    rw [hn]
  cases hb : find_include_block lines with
  | none =>
    have hP : process_fileP f true lines = ⟨true, lines, .skip⟩ := by
      unfold process_fileP; rw [hb]
    refine ⟨?_, ?_, hbridge, ?_⟩
    · intro _; rw [hP]; exact hbase
    · intro h; rw [hP] at h; cases h
    · intro st en blk h; rw [hb] at h; cases h
  | some info =>
    obtain ⟨st0, en0, blk0⟩ := info
    have hsnd : (determine_neededP f blk0 lines).2 = true := by
      simp [determine_neededP, hbase]
    have hP : process_fileP f true lines =
        (let keep0 := listToSet ((blk0.filter (fun inc =>
            inc.text ∈ (determine_neededP f blk0 lines).1)).map
            (fun inc => inc.text))
         let removed := blk0.filter (fun inc =>
            inc.text ∉ (determine_neededP f blk0 lines).1)
         let finish := fun keepF =>
           if rebuild_file lines st0 en0 blk0 keepF = lines then
             (⟨true, lines, .noop⟩ : FileResult)
           else ⟨true, rebuild_file lines st0 en0 blk0 keepF, .fixed⟩
         if f (rebuild_file lines st0 en0 blk0 keep0) then finish keep0
         else if (repairLoopP f lines st0 en0 blk0 removed keep0).1 then
           finish (repairLoopP f lines st0 en0 blk0 removed keep0).2
         else ⟨false, lines, .errRepair⟩) := by
      unfold process_fileP
      rw [hb]
      simp only [hsnd, if_true]
    simp only at hP
    cases hc : f (rebuild_file lines st0 en0 blk0 (listToSet
        ((blk0.filter (fun inc =>
          inc.text ∈ (determine_neededP f blk0 lines).1)).map
          (fun inc => inc.text)))) with
    | true =>
      rw [hc] at hP
      simp only [if_true] at hP
      refine ⟨?_, ?_, hbridge, ?_⟩
      · intro _
        rw [hP]
        split
        · exact hbase
        · exact hc
      · intro h
        rw [hP] at h
        split at h <;> cases h
      · intro st en blk h
        rw [hb] at h
        obtain ⟨rfl, rfl, rfl⟩ : st0 = st ∧ en0 = en ∧ blk0 = blk := by
          injection h with h'
          injection h' with h1 h2
          injection h2 with h3 h4
          exact ⟨h1, h3, h4⟩
        intro hcontra
        rw [hc] at hcontra
        cases hcontra
    | false =>
      rw [hc] at hP
      simp only [Bool.false_eq_true, if_false] at hP
      obtain ⟨hs1, hs2⟩ := repairLoopP_spec f lines st0 en0 blk0
        (blk0.filter (fun inc => inc.text ∉ (determine_neededP f blk0 lines).1))
        (listToSet ((blk0.filter (fun inc =>
          inc.text ∈ (determine_neededP f blk0 lines).1)).map
          (fun inc => inc.text)))
      cases hr : (repairLoopP f lines st0 en0 blk0
          (blk0.filter (fun inc => inc.text ∉ (determine_neededP f blk0 lines).1))
          (listToSet ((blk0.filter (fun inc =>
            inc.text ∈ (determine_neededP f blk0 lines).1)).map
            (fun inc => inc.text)))).1 with
      | true =>
        rw [hr] at hP
        simp only [if_true] at hP
        obtain ⟨m, hm, hkeep, hok, hprev⟩ := hs1 hr
        refine ⟨?_, ?_, hbridge, ?_⟩
        · intro _
          rw [hP]
          split
          · exact hbase
          · rw [hkeep]; exact hok
        · intro h
          rw [hP] at h
          split at h <;> cases h
        · intro st en blk h
          rw [hb] at h
          obtain ⟨rfl, rfl, rfl⟩ : st0 = st ∧ en0 = en ∧ blk0 = blk := by
            injection h with h'
            injection h' with h1 h2
            injection h2 with h3 h4
            exact ⟨h1, h3, h4⟩
          intro _
          left
          refine ⟨m, hm, hok, hprev, ?_, ?_⟩
          · rw [hP]; split <;> rfl
          · rw [hP]
            split
            · next heq =>
                show lines = _
                rw [← hkeep]
                exact heq.symm
            · show rebuild_file _ _ _ _ _ = _
              rw [hkeep]
      | false =>
        rw [hr] at hP
        simp only [Bool.false_eq_true, if_false] at hP
        refine ⟨?_, ?_, hbridge, ?_⟩
        · intro h; rw [hP] at h; cases h
        · intro _; rw [hP]; exact ⟨rfl, rfl⟩
        · intro st en blk h
          rw [hb] at h
          obtain ⟨rfl, rfl, rfl⟩ : st0 = st ∧ en0 = en ∧ blk0 = blk := by
            injection h with h'
            injection h' with h1 h2
            injection h2 with h3 h4
            exact ⟨h1, h3, h4⟩
          intro _
          right
          exact ⟨hs2 hr, hP⟩

theorem c1_fix_commit_or_unchanged_witness :
    ((fun _ : List Line => true) ["#include <a.h>\n", "int x;\n"] = true) ∧
    (((process_fileP (fun _ => true) true
          ["#include <a.h>\n", "int x;\n"]).ok = true →
        (fun _ : List Line => true)
          (process_fileP (fun _ => true) true
            ["#include <a.h>\n", "int x;\n"]).out = true) ∧
      ((process_fileP (fun _ => true) true
          ["#include <a.h>\n", "int x;\n"]).ok = false →
        (process_fileP (fun _ => true) true
            ["#include <a.h>\n", "int x;\n"]).out =
          ["#include <a.h>\n", "int x;\n"] ∧
        (process_fileP (fun _ => true) true
            ["#include <a.h>\n", "int x;\n"]).outcome = .errRepair) ∧
      (∀ s, (process_file (pureRun (fun _ => true)) true
          ["#include <a.h>\n", "int x;\n"] s).1 =
        .ok (process_fileP (fun _ => true) true
          ["#include <a.h>\n", "int x;\n"])) ∧
      c1RepairClause (fun _ => true) ["#include <a.h>\n", "int x;\n"]) :=
  ⟨rfl, c1_fix_commit_or_unchanged (fun _ => true)
    ["#include <a.h>\n", "int x;\n"] rfl⟩

/-! ## Claim C9 (confirmed) -/

/-- Claim C9: for a flags file containing `INCLUDES = -Iinc $(EXTRA)` and,
on a later line, `EXTRA = -Ivendor`, `makefile_flags` returns exactly the
two include flags `-I<D>/inc` and `-I<D>/vendor` (where `<D>` is the flags
file's directory) and no cflags.  The `$(EXTRA)` reference resolves even
though `EXTRA` is defined later, because expansion runs over the completed
variable map. -/
theorem c9_flags_scenario (base_dir : String) :
    makefile_flags ["INCLUDES = -Iinc $(EXTRA)", "EXTRA = -Ivendor"] base_dir =
      (["-I" ++ resolveJoin base_dir "inc",
        "-I" ++ resolveJoin base_dir "vendor"], []) := by
  rfl

/-! ## Claim C8: structure of rewritten content -/

theorem mkRecords_map_text (e : Nat) (K : List Line) :
    (mkRecords e K).map (fun inc => inc.text) = K := by
  induction K generalizing e with
  | nil => rfl
  | cons k ks ih => simp [mkRecords, ih]

theorem findStart_spec (ls : List Line) (i s : Nat)
    (h : findStart i ls = some s) :
    i ≤ s ∧ (∃ l, ls.get? (s - i) = some l ∧ (matchInclude l).isSome = true) ∧
      (∀ j, j < s - i → ∀ l', ls.get? j = some l' →
        (matchInclude l').isSome = false) := by
  induction ls generalizing i with
  | nil => cases h
  | cons l rest ih =>
    unfold findStart at h
    by_cases hm : (matchInclude l).isSome = true
    · rw [if_pos hm] at h
      injection h with h'
      subst h'
      refine ⟨le_refl _, ⟨l, by simp, hm⟩, ?_⟩
      intro j hj
      exact absurd hj (by omega)
    · rw [if_neg hm] at h
      obtain ⟨h1, ⟨l', hg, hm'⟩, hpre⟩ := ih (i + 1) h
      refine ⟨by omega, ⟨l', ?_, hm'⟩, ?_⟩
      · have : s - i = (s - (i + 1)) + 1 := by omega
        rw [this]
        simpa using hg
      · intro j hj l'' hg''
        cases j with
        | zero =>
          simp only [List.get?] at hg''
          injection hg'' with h''
          subst h''
          simpa using hm
        | succ j' =>
          refine hpre j' (by omega) l'' (by simpa using hg'')

theorem findStart_prefix_none (T : List Line) (i : Nat) (rest : List Line)
    (hT : ∀ l ∈ T, (matchInclude l).isSome = false) :
    findStart i (T ++ rest) = findStart (i + T.length) rest := by
  induction T generalizing i with
  | nil => simp
  | cons t T' ih =>
    have hm : (matchInclude t).isSome = false := hT t (List.mem_cons_self t T')
    have hstep : findStart i ((t :: T') ++ rest) = findStart (i + 1) (T' ++ rest) := by
      show (if (matchInclude t).isSome = true then some i
        else findStart (i + 1) (T' ++ rest)) = _
      rw [if_neg (by simp [hm])]
    have harith : i + (t :: T').length = (i + 1) + T'.length := by
      simp only [List.length_cons]
      omega
    rw [hstep, ih (i + 1) (fun l hl => hT l (List.mem_cons_of_mem t hl)), harith]

theorem findStart_head_some (i : Nat) (k : Line) (rest : List Line)
    (hk : (matchInclude k).isSome = true) :
    findStart i (k :: rest) = some i := by
  simp [findStart, hk]

theorem blockLoop_stop (ls : List Line) (e : Nat) :
    e ≤ (blockLoop e ls).1 ∧
    ((blockLoop e ls).1 - e = ls.length ∨
      ∃ l, ls.get? ((blockLoop e ls).1 - e) = some l ∧
        matchInclude l = none ∧ isBlank l = false) := by
  induction ls generalizing e with
  | nil => simp [blockLoop]
  | cons l rest ih =>
    cases hm : matchInclude l with
    | some t =>
      have hstep : blockLoop e (l :: rest) =
          ((blockLoop (e + 1) rest).1,
            (⟨e, l, t⟩ : IncludeLine) :: (blockLoop (e + 1) rest).2) := by
        show (match matchInclude l with
          | some t => ((blockLoop (e + 1) rest).1,
              (⟨e, l, t⟩ : IncludeLine) :: (blockLoop (e + 1) rest).2)
          | none => if isBlank l = true then blockLoop (e + 1) rest
              else (e, [])) = _
        rw [hm]
      rw [hstep]
      dsimp only
      obtain ⟨h1, h2⟩ := ih (e + 1)
      refine ⟨by omega, ?_⟩
      have hshift : (blockLoop (e + 1) rest).1 - e =
          ((blockLoop (e + 1) rest).1 - (e + 1)) + 1 := by omega
      rcases h2 with h2 | ⟨l', hg, hmn, hb⟩
      · left; simp only [hshift, h2, List.length_cons]
      · right
        exact ⟨l', by rw [hshift]; simpa using hg, hmn, hb⟩
    | none =>
      by_cases hb : isBlank l = true
      · have hstep : blockLoop e (l :: rest) = blockLoop (e + 1) rest := by
          show (match matchInclude l with
            | some t => ((blockLoop (e + 1) rest).1,
                (⟨e, l, t⟩ : IncludeLine) :: (blockLoop (e + 1) rest).2)
            | none => if isBlank l = true then blockLoop (e + 1) rest
                else (e, [])) = _
          rw [hm, if_pos hb]
        rw [hstep]
        obtain ⟨h1, h2⟩ := ih (e + 1)
        refine ⟨by omega, ?_⟩
        have hshift : (blockLoop (e + 1) rest).1 - e =
            ((blockLoop (e + 1) rest).1 - (e + 1)) + 1 := by omega
        rcases h2 with h2 | ⟨l', hg, hmn, hbb⟩
        · left; simp only [hshift, h2, List.length_cons]
        · right
          exact ⟨l', by rw [hshift]; simpa using hg, hmn, hbb⟩
      · have hstep : blockLoop e (l :: rest) = (e, []) := by
          show (match matchInclude l with
            | some t => ((blockLoop (e + 1) rest).1,
                (⟨e, l, t⟩ : IncludeLine) :: (blockLoop (e + 1) rest).2)
            | none => if isBlank l = true then blockLoop (e + 1) rest
                else (e, [])) = _
          rw [hm, if_neg hb]
        rw [hstep]
        refine ⟨le_refl _, Or.inr ⟨l, ?_, hm, by simpa using hb⟩⟩
        simp

theorem blockLoop_includes_run (K : List Line) (e : Nat) (rest : List Line)
    (hK : ∀ k ∈ K, (matchInclude k).isSome = true) :
    blockLoop e (K ++ rest) =
      ((blockLoop (e + K.length) rest).1,
        mkRecords e K ++ (blockLoop (e + K.length) rest).2) := by
  induction K generalizing e with
  | nil => simp [mkRecords]
  | cons k ks ih =>
    have hk : (matchInclude k).isSome = true := hK k (List.mem_cons_self k ks)
    obtain ⟨t, ht⟩ := Option.isSome_iff_exists.mp hk
    have hstep : blockLoop e ((k :: ks) ++ rest) =
        ((blockLoop (e + 1) (ks ++ rest)).1,
          (⟨e, k, t⟩ : IncludeLine) :: (blockLoop (e + 1) (ks ++ rest)).2) := by
      show (match matchInclude k with
        | some t => ((blockLoop (e + 1) (ks ++ rest)).1,
            (⟨e, k, t⟩ : IncludeLine) :: (blockLoop (e + 1) (ks ++ rest)).2)
        | none => if isBlank k = true then blockLoop (e + 1) (ks ++ rest)
            else (e, [])) = _
      rw [ht]
    have harith : e + (k :: ks).length = (e + 1) + ks.length := by
      simp only [List.length_cons]
      omega
    rw [hstep, ih (e + 1) (fun l hl => hK l (List.mem_cons_of_mem k hl)), harith]
    simp [mkRecords, ht]

theorem blockLoop_blank_stop (e : Nat) (D : List Line)
    (hD : D = [] ∨ ∃ d D', D = d :: D' ∧ matchInclude d = none ∧
      isBlank d = false) :
    blockLoop e ("\n" :: D) = (e + 1, []) := by
  have hmn : matchInclude "\n" = none := by decide
  have hbb : isBlank "\n" = true := by decide
  simp only [blockLoop, hmn, hbb, if_pos]
  rcases hD with rfl | ⟨d, D', rfl, hdm, hdb⟩
  · rfl
  · simp [blockLoop, hdm, hdb]

theorem foldl_setInsert_mem (l : List String) (acc : List String) (t : String) :
    t ∈ l.foldl (fun s u => setInsert u s) acc ↔ t ∈ acc ∨ t ∈ l := by
  induction l generalizing acc with
  | nil => simp
  | cons x xs ih =>
    simp only [List.foldl_cons, ih, setInsert_mem]
    constructor
    · rintro ((rfl | h) | h)
      · exact Or.inr (List.mem_cons_self _ _)
      · exact Or.inl h
      · exact Or.inr (List.mem_cons_of_mem x h)
    · rintro (h | h)
      · exact Or.inl (Or.inr h)
      · rcases List.mem_cons.mp h with rfl | h
        · exact Or.inl (Or.inl rfl)
        · exact Or.inr h

theorem listToSet_mem (t : String) (l : List String) :
    t ∈ listToSet l ↔ t ∈ l := by
  unfold listToSet
  rw [foldl_setInsert_mem]
  simp

theorem dedupFirstAux_eq_self (l seen : List String) (hn : l.Nodup)
    (hd : ∀ x ∈ l, x ∉ seen) : dedupFirstAux l seen = l := by
  induction l generalizing seen with
  | nil => rfl
  | cons x xs ih =>
    have hx : x ∉ seen := hd x (List.mem_cons_self x xs)
    simp only [dedupFirstAux, if_neg hx]
    refine congrArg (x :: ·) (ih (x :: seen) (List.Nodup.of_cons hn) ?_)
    intro y hy
    simp only [List.mem_cons]
    rintro (rfl | hc)
    · exact (List.nodup_cons.mp hn).1 hy
    · exact hd y (List.mem_cons_of_mem x hy) hc

theorem map_terminate_id (l : List Line) (h : ∀ t ∈ l, endsNL t = true) :
    l.map terminateLine = l := by
  induction l with
  | nil => rfl
  | cons x xs ih =>
    simp only [List.map_cons]
    rw [show terminateLine x = x from by
        unfold terminateLine
        rw [if_pos (h x (List.mem_cons_self x xs))],
      ih (fun t ht => h t (List.mem_cons_of_mem x ht))]

theorem mem_buildNewBlock (blk : List IncludeLine) (keep : List String)
    (k : Line) (hk : k ∈ buildNewBlock blk keep) :
    ∃ inc ∈ blk, inc.text ∈ keep ∧ k = terminateLine inc.text := by
  rw [buildNewBlock_spec] at hk
  obtain ⟨t, ht, rfl⟩ := List.mem_map.1 hk
  have ht' := (dedupFirstAux_mem t _ []).1 ht
  obtain ⟨htf, -⟩ := ht'
  rw [List.mem_filter] at htf
  obtain ⟨htm, htk⟩ := htf
  obtain ⟨inc, hinc, rfl⟩ := List.mem_map.1 htm
  exact ⟨inc, hinc, by simpa using htk, rfl⟩

theorem buildNewBlock_eq_dedup (blk : List IncludeLine) (keep : List String)
    (hNL : ∀ inc ∈ blk, endsNL inc.text = true) :
    buildNewBlock blk keep =
      dedupFirst ((blk.map (fun inc => inc.text)).filter
        (fun t => t ∈ keep)) := by
  rw [buildNewBlock_spec]
  apply map_terminate_id
  intro t ht
  have ht' := (dedupFirstAux_mem t _ []).1 ht
  rw [List.mem_filter] at ht'
  obtain ⟨⟨htm, -⟩, -⟩ := ht'
  obtain ⟨inc, hinc, rfl⟩ := List.mem_map.1 htm
  exact hNL inc hinc

theorem buildNewBlock_nodup (blk : List IncludeLine) (keep : List String)
    (hNL : ∀ inc ∈ blk, endsNL inc.text = true) :
    (buildNewBlock blk keep).Nodup := by
  rw [buildNewBlock_eq_dedup blk keep hNL]
  exact dedupFirstAux_nodup _ []

theorem buildNewBlock_mem_props (lines : List Line) (st en : Nat)
    (blk : List IncludeLine) (keep : List String)
    (hb : find_include_block lines = some (st, en, blk))
    (hNL : ∀ inc ∈ blk, endsNL inc.text = true) :
    ∀ k ∈ buildNewBlock blk keep,
      endsNL k = true ∧ (matchInclude k).isSome = true := by
  intro k hk
  obtain ⟨inc, hinc, -, rfl⟩ := mem_buildNewBlock blk keep k hk
  have hterm : terminateLine inc.text = inc.text := by
    unfold terminateLine
    rw [if_pos (hNL inc hinc)]
  rw [hterm]
  refine ⟨hNL inc hinc, ?_⟩
  have := (find_include_block_get lines st en blk hb inc hinc).2
  rw [this]
  rfl

/-- A committed rewrite with a non-empty kept block is in normal form: its
include block is found exactly at the kept lines, and rebuilding it with
any keep set containing all of them reproduces it byte-for-byte. -/
theorem rebuild_normal (lines : List Line) (st en : Nat)
    (blk : List IncludeLine) (keep : List String)
    (hb : find_include_block lines = some (st, en, blk))
    (hNL : ∀ inc ∈ blk, endsNL inc.text = true)
    (hne : buildNewBlock blk keep ≠ []) :
    find_include_block (rebuild_file lines st en blk keep) =
      some (st, st + (buildNewBlock blk keep).length + 1,
        mkRecords st (buildNewBlock blk keep)) ∧
    ∀ keep2 : List String, (∀ t ∈ buildNewBlock blk keep, t ∈ keep2) →
      rebuild_file (rebuild_file lines st en blk keep) st
          (st + (buildNewBlock blk keep).length + 1)
          (mkRecords st (buildNewBlock blk keep)) keep2 =
        rebuild_file lines st en blk keep := by
  -- Decompose the original block discovery.
  have hb' := hb
  unfold find_include_block at hb'
  cases hfs : findStart 0 lines with
  | none => rw [hfs] at hb'; cases hb'
  | some s0 =>
    rw [hfs] at hb'
    simp only [Option.some.injEq, Prod.mk.injEq] at hb'
    obtain ⟨rfl, hen, hblk⟩ := hb'
    obtain ⟨-, ⟨l0, hg0, hm0⟩, hpre⟩ := findStart_spec lines 0 s0 hfs
    simp only [Nat.sub_zero] at hg0 hpre
    have hstlt : s0 < lines.length := by
      by_contra hge
      rw [List.get?_eq_none.mpr (by omega)] at hg0
      cases hg0
    have hTlen : (lines.take s0).length = s0 := by
      rw [List.length_take]; omega
    have hTnone : ∀ l ∈ lines.take s0, (matchInclude l).isSome = false := by
      intro l hl
      obtain ⟨i, hi⟩ := List.get?_of_mem hl
      have hilen : i < (lines.take s0).length := by
        by_contra hge
        rw [List.get?_eq_none.mpr (by omega)] at hi
        cases hi
      have hilt : i < s0 := by omega
      refine hpre i hilt l ?_
      rw [← List.get?_take hilt]
      exact hi
    obtain ⟨hstle, hstop⟩ := blockLoop_stop (lines.drop s0) s0
    rw [hen] at hstle hstop
    have hdroplen : (lines.drop s0).length = lines.length - s0 :=
      List.length_drop s0 lines
    -- The suffix after the block: either nothing, or a non-blank
    -- non-include line first.
    have hD : lines.drop en = [] ∨ ∃ d D', lines.drop en = d :: D' ∧
        matchInclude d = none ∧ isBlank d = false := by
      rcases hstop with h | ⟨l', hg, hmn, hbb⟩
      · left
        refine List.drop_eq_nil_of_le ?_
        omega
      · right
        rw [List.get?_drop] at hg
        have henlt : en < lines.length := by
          by_contra hge
          rw [List.get?_eq_none.mpr (by omega)] at hg
          cases hg
        obtain ⟨hh, hget⟩ := List.get?_eq_some.mp
          (by rw [show s0 + (en - s0) = en by omega] at hg; exact hg)
        refine ⟨l', lines.drop (en + 1), ?_, hmn, hbb⟩
        rw [List.drop_eq_getElem_cons hh]
        rw [List.get_eq_getElem] at hget
        rw [hget]
    have hsep : sepNeeded lines en = true := by
      unfold sepNeeded
      rcases hstop with h | ⟨l', hg, hmn, hbb⟩
      · have : en ≥ lines.length := by omega
        simp [this]
      · rw [List.get?_drop, show s0 + (en - s0) = en by omega] at hg
        have : lines.getD en "" = l' := by
          show (lines.get? en).getD "" = l'
          rw [hg]
          rfl
        rw [this, hbb]
        simp
    -- The rewritten file decomposes as prefix ++ kept ++ blank ++ suffix.
    have hO : rebuild_file lines s0 en blk keep =
        lines.take s0 ++ (buildNewBlock blk keep ++ ["\n"]) ++
          lines.drop en := by
      show (let nb := buildNewBlock blk keep
        let nb' := if !nb.isEmpty && sepNeeded lines en then nb ++ ["\n"]
          else nb
        lines.take s0 ++ nb' ++ lines.drop en) = _
      simp only
      rw [if_pos ?hcond]
      case hcond =>
        rw [Bool.and_eq_true, Bool.not_eq_true', hsep]
        refine ⟨?_, rfl⟩
        cases hKc : buildNewBlock blk keep with
        | nil => exact absurd hKc hne
        | cons a l => rfl
    obtain ⟨k0, K', hK⟩ : ∃ k0 K', buildNewBlock blk keep = k0 :: K' := by
      cases hKc : buildNewBlock blk keep with
      | nil => exact absurd hKc hne
      | cons a l => exact ⟨a, l, rfl⟩
    have hprops := buildNewBlock_mem_props lines s0 en blk keep hb hNL
    -- Locate the block of the rewritten file.
    have hOassoc : rebuild_file lines s0 en blk keep =
        lines.take s0 ++ (buildNewBlock blk keep ++ "\n" :: lines.drop en) := by
      rw [hO]
      simp [List.append_assoc]
    have hfindO : findStart 0 (rebuild_file lines s0 en blk keep) = some s0 := by
      rw [hOassoc,
        findStart_prefix_none (lines.take s0) 0 _ hTnone]
      rw [hK]
      simp only [List.cons_append]
      rw [findStart_head_some _ _ _
        (hprops k0 (by rw [hK]; exact List.mem_cons_self _ _)).2]
      rw [hTlen]
      simp
    have hdropO : (rebuild_file lines s0 en blk keep).drop s0 =
        buildNewBlock blk keep ++ "\n" :: lines.drop en := by
      rw [hOassoc]
      have h' := List.drop_left (lines.take s0)
        (buildNewBlock blk keep ++ "\n" :: lines.drop en)
      rwa [hTlen] at h'
    have hloopO : blockLoop s0 ((rebuild_file lines s0 en blk keep).drop s0) =
        (s0 + (buildNewBlock blk keep).length + 1,
          mkRecords s0 (buildNewBlock blk keep)) := by
      rw [hdropO]
      rw [show buildNewBlock blk keep ++ "\n" :: lines.drop en =
        buildNewBlock blk keep ++ ("\n" :: lines.drop en) from rfl]
      rw [blockLoop_includes_run _ _ _
        (fun k hk => (hprops k hk).2)]
      rw [blockLoop_blank_stop _ _ hD]
      simp
    have hfind2 : find_include_block (rebuild_file lines s0 en blk keep) =
        some (s0, s0 + (buildNewBlock blk keep).length + 1,
          mkRecords s0 (buildNewBlock blk keep)) := by
      unfold find_include_block
      rw [hfindO]
      dsimp only
      rw [hloopO]
    refine ⟨hfind2, ?_⟩
    -- Rebuilding the rewritten file with everything kept is the identity.
    intro keep2 hkeep2
    have hKnodup : (buildNewBlock blk keep).Nodup :=
      buildNewBlock_nodup blk keep hNL
    have hK2 : buildNewBlock (mkRecords s0 (buildNewBlock blk keep)) keep2 =
        buildNewBlock blk keep := by
      rw [buildNewBlock_spec, mkRecords_map_text]
      rw [List.filter_eq_self.mpr (by
        intro a ha
        simpa using hkeep2 a ha)]
      show (dedupFirstAux _ []).map terminateLine = _
      rw [dedupFirstAux_eq_self _ [] hKnodup (by simp)]
      exact map_terminate_id _ (fun t ht => (hprops t ht).1)
    have hOlen : (rebuild_file lines s0 en blk keep).length =
        s0 + (buildNewBlock blk keep).length + 1 + (lines.drop en).length := by
      rw [hO]
      simp [hTlen]
      omega
    have hsep2 : sepNeeded (rebuild_file lines s0 en blk keep)
        (s0 + (buildNewBlock blk keep).length + 1) = true := by
      unfold sepNeeded
      rcases hD with hnil | ⟨d, D', hcons, hdm, hdb⟩
      · have : s0 + (buildNewBlock blk keep).length + 1 ≥
            (rebuild_file lines s0 en blk keep).length := by
          rw [hOlen, hnil]
          simp
        simp [this]
      · have hget : (rebuild_file lines s0 en blk keep).get?
            (s0 + (buildNewBlock blk keep).length + 1) = some d := by
          rw [hO, hcons]
          have hlen1 : (lines.take s0 ++
              (buildNewBlock blk keep ++ ["\n"])).length =
              s0 + (buildNewBlock blk keep).length + 1 := by
            simp [hTlen]
            omega
          rw [List.get?_append_right (by omega : (lines.take s0 ++
              (buildNewBlock blk keep ++ ["\n"])).length ≤
              s0 + (buildNewBlock blk keep).length + 1)]
          rw [hlen1]
          simp
        have : (rebuild_file lines s0 en blk keep).getD
            (s0 + (buildNewBlock blk keep).length + 1) "" = d := by
          show ((rebuild_file lines s0 en blk keep).get?
            (s0 + (buildNewBlock blk keep).length + 1)).getD "" = d
          rw [hget]
          rfl
        rw [this, hdb]
        simp
    have htake2 : (rebuild_file lines s0 en blk keep).take s0 =
        lines.take s0 := by
      rw [hOassoc]
      have h' := List.take_left (lines.take s0)
        (buildNewBlock blk keep ++ "\n" :: lines.drop en)
      rwa [hTlen] at h'
    have hdrop2 : (rebuild_file lines s0 en blk keep).drop
        (s0 + (buildNewBlock blk keep).length + 1) = lines.drop en := by
      conv_lhs => rw [hO]
      have hlen1 : (lines.take s0 ++
          (buildNewBlock blk keep ++ ["\n"])).length =
          s0 + (buildNewBlock blk keep).length + 1 := by
        simp [hTlen]
        omega
      rw [show lines.take s0 ++ (buildNewBlock blk keep ++ ["\n"]) ++
          lines.drop en = (lines.take s0 ++
            (buildNewBlock blk keep ++ ["\n"])) ++ lines.drop en by
          simp [List.append_assoc]]
      rw [← hlen1]
      exact List.drop_left _ _
    show (let nb := buildNewBlock (mkRecords s0 (buildNewBlock blk keep)) keep2
      let nb' := if !nb.isEmpty && sepNeeded (rebuild_file lines s0 en blk keep)
          (s0 + (buildNewBlock blk keep).length + 1) then nb ++ ["\n"] else nb
      (rebuild_file lines s0 en blk keep).take s0 ++ nb' ++
        (rebuild_file lines s0 en blk keep).drop
          (s0 + (buildNewBlock blk keep).length + 1)) = _
    simp only [hK2]
    rw [if_pos ?hcond2]
    case hcond2 =>
      rw [Bool.and_eq_true, Bool.not_eq_true', hsep2]
      refine ⟨?_, rfl⟩
      cases hKc : buildNewBlock blk keep with
      | nil => exact absurd hKc hne
      | cons a l => rfl
    rw [htake2, hdrop2, hO]

/-- Claim C8, amended: fix-mode rewriting is normalizing rather than
unconditionally idempotent.  The committed content of a rewrite whose kept
block is non-empty (include lines newline-terminated) is a fixed point of
the rewriter: a second run that again classifies every include of the
rewritten block as needed computes byte-identical content, performs no
write, and reports the no-op outcome distinctly from an active edit.
Unconditional idempotence is refuted by `c8_counterexample`, where the
second run's recompilation verdicts differ on the normalized block and a
further active edit occurs. -/
theorem c8_second_run_noop (f : List Line → Bool) (lines : List Line)
    (st en : Nat) (blk : List IncludeLine) (keepF : List String)
    (hb : find_include_block lines = some (st, en, blk))
    (hNL : ∀ inc ∈ blk, endsNL inc.text = true)
    (hne : buildNewBlock blk keepF ≠ [])
    (hok : f (rebuild_file lines st en blk keepF) = true)
    (hall : ∀ st' en' blk',
      find_include_block (rebuild_file lines st en blk keepF) =
        some (st', en', blk') →
      ∀ inc ∈ blk', f (removeIdx (rebuild_file lines st en blk keepF)
        inc.idx) = false) :
    process_fileP f true (rebuild_file lines st en blk keepF) =
      ⟨true, rebuild_file lines st en blk keepF, .noop⟩ := by
  obtain ⟨hfind, hfix⟩ := rebuild_normal lines st en blk keepF hb hNL hne
  have hall' := hall st (st + (buildNewBlock blk keepF).length + 1)
    (mkRecords st (buildNewBlock blk keepF)) hfind
  have hsnd : (determine_neededP f (mkRecords st (buildNewBlock blk keepF))
      (rebuild_file lines st en blk keepF)).2 = true := by
    simp [determine_neededP, hok]
  have hneed : ∀ inc ∈ mkRecords st (buildNewBlock blk keepF),
      inc.text ∈ (determine_neededP f (mkRecords st (buildNewBlock blk keepF))
        (rebuild_file lines st en blk keepF)).1 := by
    intro inc hinc
    simp only [determine_neededP, hok, if_true]
    rw [mem_detLoopP]
    exact Or.inr ⟨inc, hinc, rfl, hall' inc hinc⟩
  have hkeptEq : (mkRecords st (buildNewBlock blk keepF)).filter
      (fun inc => inc.text ∈ (determine_neededP f
        (mkRecords st (buildNewBlock blk keepF))
        (rebuild_file lines st en blk keepF)).1) =
      mkRecords st (buildNewBlock blk keepF) :=
    List.filter_eq_self.mpr (fun inc hinc => by simpa using hneed inc hinc)
  have hcand : rebuild_file (rebuild_file lines st en blk keepF) st
      (st + (buildNewBlock blk keepF).length + 1)
      (mkRecords st (buildNewBlock blk keepF))
      (listToSet (((mkRecords st (buildNewBlock blk keepF)).filter
        (fun inc => inc.text ∈ (determine_neededP f
          (mkRecords st (buildNewBlock blk keepF))
          (rebuild_file lines st en blk keepF)).1)).map
        (fun inc => inc.text))) =
      rebuild_file lines st en blk keepF := by
    apply hfix
    intro t ht
    rw [listToSet_mem, hkeptEq, mkRecords_map_text]
    exact ht
  unfold process_fileP
  rw [hfind]
  dsimp only
  simp only [hsnd, if_true]
  rw [hcand, hok]
  simp only [if_true, if_pos rfl]

/-- Claim C8 as stated is false: with the deterministic oracle accepting
exactly the four line sequences below, the first fix-mode run rewrites
`[inc a, blank, blank, code]` to the normalized `[inc a, blank, code]`
(an active edit), and the second run — whose candidates are now different
line sequences with different verdicts — performs ANOTHER active edit down
to `[code]` instead of being a no-op. -/
theorem c8_counterexample :
    process_fileP
        (fun l => decide (l ∈ [["#include <a.h>\n", "\n", "\n", "int x;\n"],
          ["#include <a.h>\n", "\n", "int x;\n"], ["\n", "int x;\n"],
          ["int x;\n"]]))
        true ["#include <a.h>\n", "\n", "\n", "int x;\n"] =
      ⟨true, ["#include <a.h>\n", "\n", "int x;\n"], .fixed⟩ ∧
    process_fileP
        (fun l => decide (l ∈ [["#include <a.h>\n", "\n", "\n", "int x;\n"],
          ["#include <a.h>\n", "\n", "int x;\n"], ["\n", "int x;\n"],
          ["int x;\n"]]))
        true ["#include <a.h>\n", "\n", "int x;\n"] =
      ⟨true, ["int x;\n"], .fixed⟩ ∧
    (["int x;\n"] : List Line) ≠ ["#include <a.h>\n", "\n", "int x;\n"] := by
  refine ⟨by decide, by decide, by decide⟩

theorem c8_second_run_noop_witness :
    (find_include_block ["#include <a.h>\n", "int x;\n"] =
        some (0, 1, [⟨0, "#include <a.h>\n", "a.h"⟩]) ∧
      (∀ inc ∈ [(⟨0, "#include <a.h>\n", "a.h"⟩ : IncludeLine)],
        endsNL inc.text = true) ∧
      buildNewBlock [⟨0, "#include <a.h>\n", "a.h"⟩] ["#include <a.h>\n"] ≠ [] ∧
      (fun l : List Line => decide (l ∈ [["#include <a.h>\n", "int x;\n"],
          ["#include <a.h>\n", "\n", "int x;\n"]]))
        (rebuild_file ["#include <a.h>\n", "int x;\n"] 0 1
          [⟨0, "#include <a.h>\n", "a.h"⟩] ["#include <a.h>\n"]) = true ∧
      (∀ st' en' blk',
        find_include_block (rebuild_file ["#include <a.h>\n", "int x;\n"] 0 1
          [⟨0, "#include <a.h>\n", "a.h"⟩] ["#include <a.h>\n"]) =
          some (st', en', blk') →
        ∀ inc ∈ blk',
          (fun l : List Line => decide (l ∈ [["#include <a.h>\n", "int x;\n"],
            ["#include <a.h>\n", "\n", "int x;\n"]]))
            (removeIdx (rebuild_file ["#include <a.h>\n", "int x;\n"] 0 1
              [⟨0, "#include <a.h>\n", "a.h"⟩] ["#include <a.h>\n"])
              inc.idx) = false)) ∧
    process_fileP
        (fun l : List Line => decide (l ∈ [["#include <a.h>\n", "int x;\n"],
          ["#include <a.h>\n", "\n", "int x;\n"]]))
        true (rebuild_file ["#include <a.h>\n", "int x;\n"] 0 1
          [⟨0, "#include <a.h>\n", "a.h"⟩] ["#include <a.h>\n"]) =
      ⟨true, rebuild_file ["#include <a.h>\n", "int x;\n"] 0 1
        [⟨0, "#include <a.h>\n", "a.h"⟩] ["#include <a.h>\n"], .noop⟩ :=
  ⟨⟨by decide, by decide, by decide, by decide,
      fun st' en' blk' h => by
        rw [show find_include_block (rebuild_file
            ["#include <a.h>\n", "int x;\n"] 0 1
            [⟨0, "#include <a.h>\n", "a.h"⟩] ["#include <a.h>\n"]) =
          some (0, 2, [⟨0, "#include <a.h>\n", "a.h"⟩]) from by decide] at h
        have h2 := Option.some.inj h
        injection h2 with ha hbc
        injection hbc with hb2 hc2
        subst ha
        subst hb2
        subst hc2
        decide⟩,
    c8_second_run_noop
      (fun l : List Line => decide (l ∈ [["#include <a.h>\n", "int x;\n"],
        ["#include <a.h>\n", "\n", "int x;\n"]]))
      ["#include <a.h>\n", "int x;\n"] 0 1
      [⟨0, "#include <a.h>\n", "a.h"⟩] ["#include <a.h>\n"]
      (by decide) (by decide) (by decide) (by decide)
      (fun st' en' blk' h => by
        rw [show find_include_block (rebuild_file
            ["#include <a.h>\n", "int x;\n"] 0 1
            [⟨0, "#include <a.h>\n", "a.h"⟩] ["#include <a.h>\n"]) =
          some (0, 2, [⟨0, "#include <a.h>\n", "a.h"⟩]) from by decide] at h
        have h2 := Option.some.inj h
        injection h2 with ha hbc
        injection hbc with hb2 hc2
        subst ha
        subst hb2
        subst hc2
        decide)⟩

end TrimIncludes

